import Mathlib

set_option linter.unusedSectionVars false

/-!
Verification of the inertia LRU cache
(`src/pkg/localcache/local/lru_inertia.go`, package `local`).

Two embeddings are developed:

* a sequential functional model (`LocalCache` namespace, `LRU`, `ICache`):
  the LRU core and the body of `Get`/`Del` as pure functions on cache
  states, with an explicit event list recording metric increments
  (`IncrGetHit` / `IncrGetSuccess` / `IncrGetFailed`) and eviction
  callbacks, and an explicit `fetched` flag recording whether the
  caller-supplied `fetch` closure was invoked;

* a small-step interleaving model (`Conc` namespace) of `M` threads
  running `Get` on one fixed key, with the per-entry mutex and the
  frozen-clock reading of "concurrently at one instant", used for the
  single-flight and metric-accounting properties.

The LRU core itself is the `hashicorp/golang-lru/v2/simplelru` dependency,
whose source is not part of this repository; it is modelled from the spec
(section 4.2).  Everything else is translated directly from the Go source.

Go's wall clock (`time.Now().UnixMilli()`) is an `Int` number of
milliseconds; a single `Get` call reads the clock several times, but all
reads within one call are collapsed to one instant `now`, and `expires`
arithmetic is exact `Int` arithmetic as in Go's int64 range of realistic
clock values.
-/

namespace LocalCache

/-- Entry stored in the LRU core: `inertiaLruItem[V]` without its mutex
(the sequential model needs no lock; `err` is `Option E` for Go's
`error`, `Option.none` meaning nil). -/
structure EntryS (V E : Type) where
  expires : Int
  value : V
  err : Option E
  deriving Repr, DecidableEq

/-- Modelled from the spec: the `simplelru.LRU` core of
`hashicorp/golang-lru/v2`, which is not part of this repository's
sources.  Per spec section 4.2 it is a bounded recency-ordered mapping;
`items` lists the bindings most-recently-used first and `size` is the
capacity. -/
structure LRU (K V : Type) where
  size : Nat
  items : List (K × V)
  deriving Repr, DecidableEq

variable {K V E : Type} [DecidableEq K] [Inhabited V]

/-- Modelled from the spec: `LRU.Get(k)` returns the entry if present and
promotes it to most-recently-used (spec section 4.2). -/
def LRU.lruGet (l : LRU K V) (k : K) : LRU K V × Option V :=
  match l.items.lookup k with
  | some v => (⟨l.size, (k, v) :: l.items.eraseP (fun p => p.1 == k)⟩, some v)
  | none => (l, none)

/-- Modelled from the spec: `LRU.Add(k, v)` inserts or replaces; if the
insertion grows the map beyond capacity it evicts the least-recently-used
binding and reports it (the caller invokes the eviction callback exactly
once with it); spec section 4.2. -/
def LRU.add (l : LRU K V) (k : K) (v : V) : LRU K V × Option (K × V) :=
  if (l.items.lookup k).isSome then
    (⟨l.size, (k, v) :: l.items.eraseP (fun p => p.1 == k)⟩, none)
  else
    let items' := (k, v) :: l.items
    if items'.length > l.size then
      (⟨l.size, items'.dropLast⟩, items'.getLast?)
    else
      (⟨l.size, items'⟩, none)

/-- Modelled from the spec: `LRU.Remove(k)` removes the binding if present
and returns whether it was present; no eviction callback is invoked for
explicit removal (spec section 4.2). -/
def LRU.remove (l : LRU K V) (k : K) : LRU K V × Bool :=
  if (l.items.lookup k).isSome then
    (⟨l.size, l.items.eraseP (fun p => p.1 == k)⟩, true)
  else
    (l, false)

/-- Write through the pointer held by `Get`: the Go code mutates the
`*inertiaLruItem` in place, which the pure model renders as replacing the
value stored under `k`. -/
def LRU.update (l : LRU K V) (k : K) (v : V) : LRU K V :=
  ⟨l.size, l.items.map (fun p => if p.1 = k then (k, v) else p)⟩

/-- Observable side effects of one cache operation: the three `Target`
counters and the eviction callback (carrying the evicted key and the
`value` field of the evicted entry, as the wrapper in `NewInertiaLRU`
does). -/
inductive Event (K V : Type) where
  | hit
  | succ
  | fail
  | evict (k : K) (v : V)
  deriving Repr, DecidableEq

/-- InertiaLRU cache state: the core plus the two TTLs (milliseconds). -/
structure ICache (K V E : Type) where
  core : LRU K (EntryS V E)
  successTTL : Int
  failedTTL : Int
  deriving Repr, DecidableEq

/-- Result of `Get`: the new cache state, the returned `(value, err)`
pair, the emitted events in order, and whether the caller-supplied
`fetch` closure was invoked. -/
structure GetRes (K V E : Type) where
  cache : ICache K V E
  value : V
  err : Option E
  events : List (Event K V)
  fetched : Bool
  deriving Repr, DecidableEq

/-- Tail of `Get` after both freshness checks failed: `v.value, v.err =
fetch()`, then `expires` is set from the TTL matching `err` and the
matching counter fires (lines 65-73 of `lru_inertia.go`). -/
def ICache.publish (c : ICache K V E) (key : K) (now : Int)
    (fetch : V × Option E) (evs : List (Event K V)) : GetRes K V E :=
  let exp : Int := now + (match fetch.2 with
    | none => c.successTTL
    | some _ => c.failedTTL)
  let ev : Event K V := match fetch.2 with
    | none => .succ
    | some _ => .fail
  ⟨⟨c.core.update key ⟨exp, fetch.1, fetch.2⟩, c.successTTL, c.failedTTL⟩,
    fetch.1, fetch.2, evs ++ [ev], true⟩

/-- Body of `InertiaLRU.Get` (lines 43-74 of `lru_inertia.go`) as a pure
function of the pre-state, the key, the instant `now`, and the pair the
`fetch` closure would return.  The found branch snapshots the entry and
returns it as a hit when `expires != 0 && expires > now`; the miss branch
adds a zero entry (possibly evicting); both fall through to the re-check
`v.expires > now` and then to `fetch`. -/
def ICache.get (c : ICache K V E) (key : K) (now : Int)
    (fetch : V × Option E) : GetRes K V E :=
  match (c.core.lruGet key).2 with
  | some v =>
      let core1 := (c.core.lruGet key).1
      let c1 : ICache K V E := ⟨core1, c.successTTL, c.failedTTL⟩
      if v.expires ≠ 0 ∧ v.expires > now then
        ⟨c1, v.value, v.err, [.hit], false⟩
      else if v.expires > now then
        ⟨c1, v.value, v.err, [], false⟩
      else
        c1.publish key now fetch []
  | none =>
      let v : EntryS V E := ⟨0, default, none⟩
      let added := (c.core.lruGet key).1.add key v
      let c2 : ICache K V E := ⟨added.1, c.successTTL, c.failedTTL⟩
      let evs : List (Event K V) := match added.2 with
        | some p => [.evict p.1 p.2.value]
        | none => []
      if (0 : Int) > now then
        ⟨c2, v.value, v.err, evs, false⟩
      else
        c2.publish key now fetch evs

/-- Body of `InertiaLRU.Del` (lines 76-81): remove under the cache lock,
return whether the key was present.  The second component of the removal
carries no eviction data, so `Del` emits no events. -/
def ICache.del (c : ICache K V E) (key : K) :
    ICache K V E × Bool × List (Event K V) :=
  let r := c.core.remove key
  (⟨r.1, c.successTTL, c.failedTTL⟩, r.2, [])

/-- Body of `NewInertiaLRU` (lines 16-33): `simplelru.NewLRU` rejects a
non-positive size with an error (modelled from the spec: "fails loudly if
capacity ≤ 0"), on which the constructor panics — rendered as `none`. -/
def NewInertiaLRU (size : Int) (successTTL failedTTL : Int) :
    Option (ICache K V E) :=
  if size ≤ 0 then none
  else some ⟨⟨size.toNat, []⟩, successTTL, failedTTL⟩

/-- TTL that `Get` applies to a fetch outcome: `successTTL` for a nil
error, `failedTTL` otherwise. -/
def ttlFor (c : ICache K V E) (fe : Option E) : Int :=
  match fe with
  | none => c.successTTL
  | some _ => c.failedTTL

/-- Recognizer for the `IncrGetHit` event. -/
def isHitE : Event K V → Bool
  | .hit => true
  | _ => false

/-- Recognizer for the `IncrGetSuccess` event. -/
def isSuccE : Event K V → Bool
  | .succ => true
  | _ => false

/-- Recognizer for the `IncrGetFailed` event. -/
def isFailE : Event K V → Bool
  | .fail => true
  | _ => false

/-- Recognizer for the eviction-callback event. -/
def isEvictE : Event K V → Bool
  | .evict _ _ => true
  | _ => false

namespace Conc

/-!
Small-step interleaving model of `M` threads all running
`InertiaLRU.Get` on one fixed key `k`, against one shared entry.

The scenario of the concurrency claims involves a single key and no
`Del`; with capacity ≥ 1 an `Add` of `k` never evicts `k` itself, so the
key's binding, once created, persists, and exactly one
`inertiaLruItem` is ever allocated for it.  The configuration therefore
carries that one optional entry (`entry = none` models "`k` not in the
core"), the three `Target` counters, the number of `fetch` invocations so
far, and one `Phase` per thread.

The clock is frozen at one instant `now` — the reading of "M callers at
the same instant" — and the `fetch` closure deterministically returns the
pair `(fv, fe)`.  Each step is one mutex-protected critical section of
the Go code:

* `enterMiss` — lines 44, 56-59: cache lock held, `core.Get` misses, the
  zero entry is added and its mutex acquired before the cache lock is
  released, leaving the thread just before the re-check;
* `enterFound` — lines 44-45: cache lock held, `core.Get` hits; the
  thread now waits on the entry mutex (line 47);
* `acquireHit` — lines 47-53: entry mutex acquired (it was free),
  snapshot is fresh: release, `IncrGetHit`, return the snapshot;
* `acquireStale` — lines 47-50: entry mutex acquired, snapshot stale or
  zero: keep the mutex, proceed to the re-check;
* `recheckFresh` — lines 61-64: holding the mutex, the re-check
  `v.expires > now` passes: return without any counter;
* `startFetch` — lines 62, 65: the re-check fails, `fetch()` begins
  (mutex still held);
* `endFetch` — lines 65-73: `fetch` returns `(fv, fe)`, fields and
  `expires` are written, the matching counter fires, the mutex is
  released and the pair returned.
-/

/-- Which counter a completed `Get` fired: the snapshot hit path fires
`IncrGetHit`, the publish path `IncrGetSuccess` or `IncrGetFailed`, and
the dead re-check path would fire none. -/
inductive Ctr where
  | hit
  | succ
  | fail
  | silent
  deriving Repr, DecidableEq

/-- Control point of one thread inside `Get` (`done` records the
returned pair and the counter the call fired). -/
inductive Phase (V E : Type) where
  | start
  | waitEntry
  | preFetch
  | inFetch
  | done (retV : V) (retE : Option E) (k : Ctr)
  deriving Repr, DecidableEq

/-- The one `inertiaLruItem` of the key: its mutex (`locked` names the
owning thread) and its three fields. -/
structure CEntry (V E : Type) where
  locked : Option Nat
  expires : Int
  value : V
  err : Option E
  deriving Repr, DecidableEq

/-- Global configuration: the key's entry (if the key is in the core),
the three counters, the number of `fetch` invocations so far, and the
per-thread phases. -/
structure Config (V E : Type) where
  entry : Option (CEntry V E)
  hitC : Nat
  succC : Nat
  failC : Nat
  fetchCount : Nat
  threads : List (Phase V E)
  deriving Repr, DecidableEq

/-- TTL applied to the fetch outcome `fe`. -/
def ttlOf (sTTL fTTL : Int) (fe : Option E) : Int :=
  match fe with
  | none => sTTL
  | some _ => fTTL

/-- Counter fired by the publishing thread. -/
def retCtr (fe : Option E) : Ctr :=
  match fe with
  | none => .succ
  | some _ => .fail

/-- Increment of `IncrGetSuccess` on a publish: one iff the error is nil. -/
def succIncr (fe : Option E) : Nat :=
  match fe with
  | none => 1
  | some _ => 0

/-- Increment of `IncrGetFailed` on a publish: one iff the error is non-nil. -/
def failIncr (fe : Option E) : Nat :=
  match fe with
  | none => 0
  | some _ => 1

/-- One interleaving step: some thread `t` executes its next
mutex-protected critical section. -/
inductive Step (now sTTL fTTL : Int) (fv : V) (fe : Option E) :
    Config V E → Config V E → Prop where
  | enterMiss (c : Config V E) (t : Nat)
      (hp : c.threads[t]? = some .start) (he : c.entry = none) :
      Step now sTTL fTTL fv fe c
        { c with entry := some ⟨some t, 0, default, none⟩,
                 threads := c.threads.set t .preFetch }
  | enterFound (c : Config V E) (t : Nat) (e : CEntry V E)
      (hp : c.threads[t]? = some .start) (he : c.entry = some e) :
      Step now sTTL fTTL fv fe c
        { c with threads := c.threads.set t .waitEntry }
  | acquireHit (c : Config V E) (t : Nat) (e : CEntry V E)
      (hp : c.threads[t]? = some .waitEntry) (he : c.entry = some e)
      (hl : e.locked = none) (h0 : e.expires ≠ 0) (hn : e.expires > now) :
      Step now sTTL fTTL fv fe c
        { c with hitC := c.hitC + 1,
                 threads := c.threads.set t (.done e.value e.err .hit) }
  | acquireStale (c : Config V E) (t : Nat) (e : CEntry V E)
      (hp : c.threads[t]? = some .waitEntry) (he : c.entry = some e)
      (hl : e.locked = none) (hs : ¬ (e.expires ≠ 0 ∧ e.expires > now)) :
      Step now sTTL fTTL fv fe c
        { c with entry := some { e with locked := some t },
                 threads := c.threads.set t .preFetch }
  | recheckFresh (c : Config V E) (t : Nat) (e : CEntry V E)
      (hp : c.threads[t]? = some .preFetch) (he : c.entry = some e)
      (hn : e.expires > now) :
      Step now sTTL fTTL fv fe c
        { c with entry := some { e with locked := none },
                 threads := c.threads.set t (.done e.value e.err .silent) }
  | startFetch (c : Config V E) (t : Nat) (e : CEntry V E)
      (hp : c.threads[t]? = some .preFetch) (he : c.entry = some e)
      (hn : ¬ e.expires > now) :
      Step now sTTL fTTL fv fe c
        { c with fetchCount := c.fetchCount + 1,
                 threads := c.threads.set t .inFetch }
  | endFetch (c : Config V E) (t : Nat) (e : CEntry V E)
      (hp : c.threads[t]? = some .inFetch) (he : c.entry = some e) :
      Step now sTTL fTTL fv fe c
        { c with entry := some ⟨none, now + ttlOf sTTL fTTL fe, fv, fe⟩,
                 succC := c.succC + succIncr fe,
                 failC := c.failC + failIncr fe,
                 threads := c.threads.set t (.done fv fe (retCtr fe)) }

/-- Reachability under interleaving. -/
def Reach (now sTTL fTTL : Int) (fv : V) (fe : Option E) :
    Config V E → Config V E → Prop :=
  Relation.ReflTransGen (Step now sTTL fTTL fv fe)

/-- Initial configuration: `M` threads about to call `Get`, counters
zero, and the key either absent or carrying a lock-free entry. -/
def initConfig (M : Nat) (ent : Option (CEntry V E)) : Config V E :=
  ⟨ent, 0, 0, 0, 0, List.replicate M .start⟩

/-- Initial entry shape of the concurrency claims: the key is absent
(Empty), or present and lock-free with `expires ≤ now` (never resolved,
or Stale at the instant `now`). -/
def InitOk (now : Int) : Option (CEntry V E) → Prop
  | none => True
  | some e => e.locked = none ∧ e.expires ≤ now

/-- Initial entry shape for the dead-code claim: any lock-free entry. -/
def InitFree : Option (CEntry V E) → Prop
  | none => True
  | some e => e.locked = none

/-- Thread `u` holds the entry mutex: it is between acquiring it and the
release performed by its return path. -/
def holder (l : List (Phase V E)) (u : Nat) : Prop :=
  l[u]? = some .preFetch ∨ l[u]? = some .inFetch

/-- Recognizer: completed with counter `k`. -/
def isDoneWith (k : Ctr) : Phase V E → Bool
  | .done _ _ k' => k' == k
  | _ => false

/-- Recognizer: fetch in flight. -/
def isInFetchP : Phase V E → Bool
  | .inFetch => true
  | _ => false

/-- Recognizer: completed. -/
def isDoneP : Phase V E → Bool
  | .done _ _ _ => true
  | _ => false

/-- Number of completed `Get` calls that fired counter `k`. -/
def nCtr (k : Ctr) (c : Config V E) : Nat :=
  c.threads.countP (isDoneWith k)

/-- Number of in-flight `fetch` invocations. -/
def nInFetch (c : Config V E) : Nat :=
  c.threads.countP isInFetchP

/-- Number of completed `Get` calls. -/
def nDone (c : Config V E) : Nat :=
  c.threads.countP isDoneP

/-- Every thread has completed its `Get`. -/
def AllDone (c : Config V E) : Prop :=
  ∀ ph ∈ c.threads, isDoneP ph = true

/-- The entry has been published and is fresh at the frozen instant. -/
def Published (now : Int) (c : Config V E) : Prop :=
  ∃ e, c.entry = some e ∧ e.expires > now

/-- Mutex and accounting invariant of every reachable configuration
(for a wall clock, `0 ≤ now`). -/
structure Inv (now : Int) (fe : Option E) (c : Config V E) : Prop where
  lockSome : ∀ u e, c.entry = some e → e.locked = some u →
    holder c.threads u ∧ ∀ u', holder c.threads u' → u' = u
  lockNone : ∀ e, c.entry = some e → e.locked = none →
    ∀ u, ¬ holder c.threads u
  noEntry : c.entry = none → ∀ ph ∈ c.threads, ph = Phase.start
  preStale : ∀ t : Nat, c.threads[t]? = some Phase.preFetch →
    ∃ e, c.entry = some e ∧ e.expires ≤ now
  hitEq : c.hitC = nCtr .hit c
  succEq : c.succC = nCtr .succ c
  failEq : c.failC = nCtr .fail c
  fetchEq : c.fetchCount = nInFetch c + (nCtr .succ c + nCtr .fail c)
  noSilent : nCtr .silent c = 0
  failNone : fe.isNone = true → nCtr .fail c = 0
  succSome : fe.isNone = false → nCtr .succ c = 0

/-- Publication invariant, valid when the TTL matching the fetch outcome
is positive: once fresh, the entry holds exactly the published pair, no
thread holds the mutex any more, `fetch` ran exactly once, and every
completed call returned the published pair; before publication no call
has completed. -/
structure InvP (now sTTL fTTL : Int) (fv : V) (fe : Option E)
    (c : Config V E) : Prop where
  pubEntry : Published now c →
    c.entry = some ⟨none, now + ttlOf sTTL fTTL fe, fv, fe⟩ ∧
    (∀ u, ¬ holder c.threads u) ∧ c.fetchCount = 1
  pubDone : ∀ (t : Nat) (v : V) (e : Option E) (k : Ctr),
    c.threads[t]? = some (Phase.done v e k) →
    Published now c ∧ v = fv ∧ e = fe

end Conc

/-- Promoting a found binding to the front permutes the association
list: the LRU core keeps the same bindings. -/
theorem lookup_some_perm {V' : Type} (k : K) (v : V') (l : List (K × V'))
    (h : l.lookup k = some v) :
    l.Perm ((k, v) :: l.eraseP (fun p => p.1 == k)) := by
  induction l with
  | nil => simp at h
  | cons hd tl ih =>
    obtain ⟨k', v'⟩ := hd
    rw [List.lookup_cons] at h
    by_cases hk : k = k'
    · subst hk
      simp only [beq_self_eq_true, if_pos] at h
      obtain rfl : v' = v := by simpa using h
      simp
    · have hbeq : (k == k') = false := beq_false_of_ne hk
      rw [hbeq] at h
      simp only [if_neg] at h
      have hsymm : (k' == k) = false := beq_false_of_ne (Ne.symm hk)
      rw [List.eraseP_cons_of_neg (by simpa using hsymm)]
      exact ((ih h).cons (k', v')).trans (List.Perm.swap _ _ _)

/-- After erasing the binding of `k` from an association list with
pairwise-distinct keys, `k` is no longer bound. -/
theorem lookup_eraseP_self {V' : Type} (k : K) (l : List (K × V'))
    (hnd : (l.map Prod.fst).Nodup) :
    (l.eraseP (fun p => p.1 == k)).lookup k = none := by
  induction l with
  | nil => simp
  | cons hd tl ih =>
    obtain ⟨k', v'⟩ := hd
    simp only [List.map_cons, List.nodup_cons] at hnd
    by_cases hk : k' = k
    · subst hk
      rw [List.eraseP_cons_of_pos (by simp)]
      rw [List.lookup_eq_none_iff]
      intro p hp
      have : p.1 ∈ tl.map Prod.fst := List.mem_map_of_mem Prod.fst hp
      have hne : k' ≠ p.1 := fun he => hnd.1 (he ▸ this)
      simpa using hne
    · rw [List.eraseP_cons_of_neg (by simpa using beq_false_of_ne hk)]
      rw [List.lookup_cons]
      rw [beq_false_of_ne (Ne.symm hk)]
      simpa using ih hnd.2

/-- Erasing a bound key shortens the list by exactly one. -/
theorem length_lookup_eraseP {V' : Type} (k : K) (v : V') (l : List (K × V'))
    (h : l.lookup k = some v) :
    (l.eraseP (fun p => p.1 == k)).length + 1 = l.length := by
  obtain ⟨l₁, l₂, rfl, -⟩ := List.lookup_eq_some_iff.mp h
  have hmem : (k, v) ∈ l₁ ++ (k, v) :: l₂ := by simp
  have := List.length_eraseP_of_mem hmem (p := fun p => p.1 == k) (by simp)
  rw [this]
  have : 0 < (l₁ ++ (k, v) :: l₂).length := List.length_pos.mpr (by simp)
  omega

/-- Publishing through the held pointer: the key promoted to the front
by the lookup (or freshly added) ends up bound to the written entry. -/
theorem lookup_update_cons {V' : Type} (s : Nat) (k : K) (v v' : V')
    (rest : List (K × V')) :
    ((LRU.mk s ((k, v) :: rest)).update k v').items.lookup k = some v' := by
  simp [LRU.update]

/-- Characterization of the publish tail of `Get` on a core whose front
binding is the key being written. -/
theorem publish_spec (s : Nat) (key : K) (v : EntryS V E)
    (rest : List (K × EntryS V E)) (sT fT now : Int) (fv : V) (fe : Option E)
    (evs : List (Event K V)) :
    ((⟨⟨s, (key, v) :: rest⟩, sT, fT⟩ : ICache K V E).publish key now (fv, fe) evs).value = fv ∧
    ((⟨⟨s, (key, v) :: rest⟩, sT, fT⟩ : ICache K V E).publish key now (fv, fe) evs).err = fe ∧
    ((⟨⟨s, (key, v) :: rest⟩, sT, fT⟩ : ICache K V E).publish key now (fv, fe) evs).cache.core.items.lookup key =
      some ⟨now + (match fe with | none => sT | some _ => fT), fv, fe⟩ ∧
    ((⟨⟨s, (key, v) :: rest⟩, sT, fT⟩ : ICache K V E).publish key now (fv, fe) evs).cache.successTTL = sT ∧
    ((⟨⟨s, (key, v) :: rest⟩, sT, fT⟩ : ICache K V E).publish key now (fv, fe) evs).cache.failedTTL = fT ∧
    ((⟨⟨s, (key, v) :: rest⟩, sT, fT⟩ : ICache K V E).publish key now (fv, fe) evs).events =
      evs ++ [match fe with | none => Event.succ | some _ => Event.fail] ∧
    ((⟨⟨s, (key, v) :: rest⟩, sT, fT⟩ : ICache K V E).publish key now (fv, fe) evs).fetched = true := by
  cases fe <;>
    exact ⟨rfl, rfl, lookup_update_cons s key v _ rest, rfl, rfl, rfl, rfl⟩

/-- Fresh found entry: `Get` promotes it, returns the snapshot with a
single `IncrGetHit`, and does not invoke `fetch`. -/
theorem get_hit_of_fresh (c : ICache K V E) (key : K) (now : Int)
    (f : V × Option E) (e : EntryS V E)
    (hl : c.core.items.lookup key = some e)
    (h0 : e.expires ≠ 0) (hn : e.expires > now) :
    c.get key now f =
      ⟨⟨⟨c.core.size, (key, e) :: c.core.items.eraseP (fun p => p.1 == key)⟩,
        c.successTTL, c.failedTTL⟩, e.value, e.err, [.hit], false⟩ := by
  simp only [ICache.get, LRU.lruGet, hl]
  rw [if_pos ⟨h0, hn⟩]

/-- Stale found entry: both freshness checks fail and `Get` runs the
publish tail on the promoted core. -/
theorem get_stale_eq_publish (c : ICache K V E) (key : K) (now : Int)
    (f : V × Option E) (e : EntryS V E)
    (hl : c.core.items.lookup key = some e)
    (hst : e.expires ≤ now) :
    c.get key now f =
      (⟨⟨c.core.size, (key, e) :: c.core.items.eraseP (fun p => p.1 == key)⟩,
        c.successTTL, c.failedTTL⟩ : ICache K V E).publish key now f [] := by
  have hnot : ¬ e.expires > now := Int.not_lt.mpr hst
  simp only [ICache.get, LRU.lruGet, hl]
  rw [if_neg (fun h => hnot h.2), if_neg hnot]

/-- Missed key: either the clock is negative (unreachable for a wall
clock) and the dead re-check returns the zero entry, or `Get` adds a
zero entry (evicting at most one other binding) and runs the publish
tail on it. -/
theorem get_miss_cases (s : Nat) (items : List (K × EntryS V E))
    (sT fT : Int) (key : K) (now : Int) (f : V × Option E)
    (hl : items.lookup key = none) (hsz : 1 ≤ s) :
    ((0 : Int) > now ∧
      ((⟨⟨s, items⟩, sT, fT⟩ : ICache K V E).get key now f).fetched = false) ∨
    (¬ ((0 : Int) > now) ∧ ∃ (rest : List (K × EntryS V E)) (evs : List (Event K V)),
      (⟨⟨s, items⟩, sT, fT⟩ : ICache K V E).get key now f =
        (⟨⟨s, (key, (⟨0, default, none⟩ : EntryS V E)) :: rest⟩,
          sT, fT⟩ : ICache K V E).publish key now f evs ∧
      evs.countP isHitE = 0 ∧ evs.countP isSuccE = 0 ∧ evs.countP isFailE = 0 ∧
      (items.length ≤ s → rest.length + 1 ≤ s) ∧
      (evs = [] → rest = items)) := by
  by_cases hnow : (0 : Int) > now
  · left
    refine ⟨hnow, ?_⟩
    simp only [ICache.get, LRU.lruGet, hl]
    rw [if_pos hnow]
  · right
    refine ⟨hnow, ?_⟩
    simp only [ICache.get, LRU.lruGet, hl]
    rw [LRU.add]
    simp only [hl, Option.isSome_none, Bool.false_eq_true, if_false]
    by_cases hcap : ((key, (⟨0, default, none⟩ : EntryS V E)) :: items).length > s
    · have hne : items ≠ [] := by
        intro h
        rw [h] at hcap
        simp at hcap
        omega
      cases hitems : items with
      | nil => exact absurd hitems hne
      | cons p tl =>
        subst hitems
        rw [if_pos hcap]
        cases hgl : ((key, (⟨0, default, none⟩ : EntryS V E)) :: p :: tl).getLast? with
        | none => simp at hgl
        | some q =>
            refine ⟨(p :: tl).dropLast, [Event.evict q.1 q.2.value], ?_, ?_, ?_, ?_, ?_, ?_⟩
            · rw [if_neg hnow]
              simp only [hgl, List.dropLast_cons₂]
            · simp [List.countP_cons, isHitE, isEvictE]
            · simp [List.countP_cons, isSuccE]
            · simp [List.countP_cons, isFailE]
            · intro hb
              have hlen : (p :: tl).dropLast.length = tl.length := by simp
              simp only [hlen]
              simp only [List.length_cons] at hb
              omega
            · intro h
              cases h
    · rw [if_neg hcap]
      refine ⟨items, [], ?_, rfl, rfl, rfl, fun _ => ?_, fun _ => rfl⟩
      · rw [if_neg hnow]
      · simp only [List.length_cons] at hcap
        omega

/-- Characterization of every `Get` call that invokes `fetch`: the pair
returned by `fetch` is stored verbatim under the key with `expires = now
+ TTL` (the TTL matching the error), the call returns that pair, and the
events carry no hit and exactly the one counter matching the outcome. -/
theorem get_publishes (c : ICache K V E) (key : K) (now : Int) (fv : V)
    (fe : Option E) (hsz : 1 ≤ c.core.size)
    (hf : (c.get key now (fv, fe)).fetched = true) :
    (c.get key now (fv, fe)).value = fv ∧
    (c.get key now (fv, fe)).err = fe ∧
    (c.get key now (fv, fe)).cache.core.items.lookup key =
      some ⟨now + ttlFor c fe, fv, fe⟩ ∧
    (c.get key now (fv, fe)).cache.successTTL = c.successTTL ∧
    (c.get key now (fv, fe)).cache.failedTTL = c.failedTTL ∧
    (c.get key now (fv, fe)).events.countP isHitE = 0 ∧
    ((c.get key now (fv, fe)).events.countP isSuccE =
      if fe.isNone then 1 else 0) ∧
    ((c.get key now (fv, fe)).events.countP isFailE =
      if fe.isNone then 0 else 1) := by
  obtain ⟨⟨s, items⟩, sT, fT⟩ := c
  cases hlk : items.lookup key with
  | some e =>
    by_cases hfr : e.expires ≠ 0 ∧ e.expires > now
    · rw [get_hit_of_fresh _ key now (fv, fe) e hlk hfr.1 hfr.2] at hf
      simp at hf
    · by_cases hgt : e.expires > now
      · simp only [ICache.get, LRU.lruGet, hlk] at hf
        rw [if_neg hfr, if_pos hgt] at hf
        simp at hf
      · have hst : e.expires ≤ now := Int.not_lt.mp hgt
        rw [get_stale_eq_publish _ key now (fv, fe) e hlk hst]
        obtain ⟨h1, h2, h3, h4, h5, h6, -⟩ :=
          publish_spec s key e (items.eraseP (fun p => p.1 == key))
            sT fT now fv fe []
        refine ⟨h1, h2, h3, h4, h5, ?_, ?_, ?_⟩ <;>
          rw [h6] <;> cases fe <;>
          simp [List.countP_cons, isHitE, isSuccE, isFailE]
  | none =>
    rcases get_miss_cases s items sT fT key now (fv, fe) hlk hsz with
      ⟨hn, hff⟩ | ⟨hn, rest, evs, heq, hh, hs2, hf2, hlen, hrest⟩
    · rw [hff] at hf
      simp at hf
    · rw [heq]
      obtain ⟨h1, h2, h3, h4, h5, h6, -⟩ :=
        publish_spec s key (⟨0, default, none⟩ : EntryS V E) rest
          sT fT now fv fe evs
      refine ⟨h1, h2, h3, h4, h5, ?_, ?_, ?_⟩ <;>
        rw [h6] <;> cases fe <;>
        simp [List.countP_append, List.countP_cons, hh, hs2, hf2,
          isHitE, isSuccE, isFailE]

/-- Replacing one element shifts `countP` by the difference of the
predicate on the old and new values. -/
theorem countP_set_shift {α : Type} (p : α → Bool) (l : List α) (t : Nat)
    (a b : α) (h : l[t]? = some a) :
    (l.set t b).countP p + (if p a then 1 else 0)
      = l.countP p + (if p b then 1 else 0) := by
  induction l generalizing t with
  | nil => simp at h
  | cons hd tl ih =>
    cases t with
    | zero =>
      obtain rfl : hd = a := by simpa using h
      cases hpa : p hd <;> cases hpb : p b <;>
        simp [List.countP_cons, hpa, hpb]
    | succ t =>
      simp only [List.getElem?_cons_succ] at h
      have := ih t h
      cases hph : p hd <;>
        simp only [List.set_cons_succ, List.countP_cons, hph] <;>
        omega

/-- Replacing an element by one the predicate treats equally keeps the
count. -/
theorem countP_set_same {α : Type} (p : α → Bool) {l : List α} {t : Nat}
    {a : α} (b : α) (h : l[t]? = some a) (hab : p a = p b) :
    (l.set t b).countP p = l.countP p := by
  have := countP_set_shift p l t a b h
  rw [hab] at this
  omega

/-- Replacing a non-matching element by a matching one adds one. -/
theorem countP_set_incr {α : Type} (p : α → Bool) {l : List α} {t : Nat}
    {a : α} (b : α) (h : l[t]? = some a) (ha : p a = false)
    (hb : p b = true) :
    (l.set t b).countP p = l.countP p + 1 := by
  have := countP_set_shift p l t a b h
  rw [ha, hb] at this
  simpa using this

/-- Replacing a matching element by a non-matching one removes one. -/
theorem countP_set_decr {α : Type} (p : α → Bool) {l : List α} {t : Nat}
    {a : α} (b : α) (h : l[t]? = some a) (ha : p a = true)
    (hb : p b = false) :
    (l.set t b).countP p + 1 = l.countP p := by
  have := countP_set_shift p l t a b h
  rw [ha, hb] at this
  simpa using this

/-- A predicate matched at no index counts zero. -/
theorem countP_zero_of_getElem {α : Type} (p : α → Bool) (l : List α)
    (h : ∀ (i : Nat) (b : α), l[i]? = some b → p b = false) :
    l.countP p = 0 := by
  rw [List.countP_eq_zero]
  intro x hx
  obtain ⟨i, hi⟩ := List.mem_iff_getElem?.mp hx
  simp [h i x hi]

/-- A predicate matched at most at one fixed index counts at most one. -/
theorem countP_le_one_unique {α : Type} (p : α → Bool) :
    ∀ (l : List α) (w : Nat),
      (∀ (i : Nat) (b : α), l[i]? = some b → p b = true → i = w) →
      l.countP p ≤ 1 := by
  intro l
  induction l with
  | nil => intro w h; simp
  | cons hd tl ih =>
    intro w h
    cases hph : p hd with
    | true =>
      have hw : 0 = w := h 0 hd (by simp) hph
      have h0 : tl.countP p = 0 := by
        apply countP_zero_of_getElem
        intro i b hi
        by_contra hb
        have hpb : p b = true := by
          cases hpb : p b
          · exact absurd hpb hb
          · rfl
        have : i + 1 = w := h (i + 1) b (by simpa using hi) hpb
        omega
      simp [List.countP_cons, hph, h0]
    | false =>
      cases w with
      | zero =>
        have h0 : tl.countP p = 0 := by
          apply countP_zero_of_getElem
          intro i b hi
          by_contra hb
          have hpb : p b = true := by
            cases hpb : p b
            · exact absurd hpb hb
            · rfl
          have : i + 1 = 0 := h (i + 1) b (by simpa using hi) hpb
          omega
        simp [List.countP_cons, hph, h0]
      | succ w' =>
        have hle := ih w' (fun i b hi hp => by
          have : i + 1 = w' + 1 := h (i + 1) b (by simpa using hi) hp
          omega)
        simpa [List.countP_cons, hph] using hle

/-- A predicate matched exactly at one fixed index counts exactly one. -/
theorem countP_one_unique {α : Type} (p : α → Bool) (l : List α) (w : Nat)
    (b : α) (hw : l[w]? = some b) (hpb : p b = true)
    (huniq : ∀ (i : Nat) (b' : α), l[i]? = some b' → p b' = true → i = w) :
    l.countP p = 1 := by
  have hle := countP_le_one_unique p l w huniq
  have hpos : 0 < l.countP p :=
    List.countP_pos_iff.mpr ⟨b, List.mem_iff_getElem?.mpr ⟨w, hw⟩, hpb⟩
  omega

namespace Conc

variable {V E : Type} [Inhabited V]
variable {now sTTL fTTL : Int} {fv : V} {fe : Option E}

/-- Mutex holders after replacing thread `t`'s phase. -/
theorem holder_set_iff (l : List (Phase V E)) (t : Nat) (ph : Phase V E)
    (ht : t < l.length) (u : Nat) :
    holder (l.set t ph) u ↔
      (u = t ∧ (ph = Phase.preFetch ∨ ph = Phase.inFetch)) ∨
      (u ≠ t ∧ holder l u) := by
  by_cases hu : u = t
  · subst hu
    unfold holder
    rw [List.getElem?_set_self ht]
    constructor
    · rintro (h | h)
      · exact Or.inl ⟨rfl, Or.inl (by simpa using h)⟩
      · exact Or.inl ⟨rfl, Or.inr (by simpa using h)⟩
    · rintro (⟨-, h | h⟩ | ⟨hne, -⟩)
      · subst h; left; rfl
      · subst h; right; rfl
      · exact absurd rfl hne
  · unfold holder
    rw [List.getElem?_set_ne (fun h => hu h.symm)]
    simp [hu, holder]

/-- A pool of threads that have not entered `Get` holds no mutex. -/
theorem no_holder_of_start (l : List (Phase V E))
    (hall : ∀ ph ∈ l, ph = Phase.start) (u : Nat) : ¬ holder l u := by
  rintro (h | h)
  · have := hall _ (List.mem_iff_getElem?.mpr ⟨u, h⟩)
    cases this
  · have := hall _ (List.mem_iff_getElem?.mpr ⟨u, h⟩)
    cases this

/-- Invariant preservation: a thread misses and installs the locked zero
entry. -/
theorem inv_enterMiss (hnow : 0 ≤ now) (c : Config V E) (t : Nat)
    (hp : c.threads[t]? = some Phase.start) (he : c.entry = none)
    (hinv : Inv now fe c) :
    Inv now fe { c with
      entry := some ⟨some t, 0, default, none⟩,
      threads := c.threads.set t Phase.preFetch } := by
  obtain ⟨hlt, -⟩ := List.getElem?_eq_some_iff.mp hp
  have hall := hinv.noEntry he
  have hnh : ∀ u, ¬ holder c.threads u := no_holder_of_start c.threads hall
  refine ⟨?_, ?_, ?_, ?_, ?_, ?_, ?_, ?_, ?_, ?_, ?_⟩
  · intro u e heq hlock
    obtain rfl : (⟨some t, 0, default, none⟩ : CEntry V E) = e := by
      simpa using heq
    obtain rfl : t = u := by simpa using hlock
    refine ⟨Or.inl ?_, ?_⟩
    · show (c.threads.set t Phase.preFetch)[t]? = some Phase.preFetch
      simpa using List.getElem?_set_self hlt
    · intro u' hu'
      rcases (holder_set_iff c.threads t Phase.preFetch hlt u').mp hu' with
        ⟨rfl, -⟩ | ⟨hne, hold⟩
      · rfl
      · exact absurd hold (hnh u')
  · intro e heq hlock
    obtain rfl : (⟨some t, 0, default, none⟩ : CEntry V E) = e := by
      simpa using heq
    simp at hlock
  · intro h
    exact Option.noConfusion h
  · intro u hu
    exact ⟨⟨some t, 0, default, none⟩, rfl, by simpa using hnow⟩
  · show c.hitC =
      (c.threads.set t Phase.preFetch).countP (isDoneWith Ctr.hit)
    rw [countP_set_same (isDoneWith Ctr.hit) Phase.preFetch hp rfl]
    exact hinv.hitEq
  · show c.succC =
      (c.threads.set t Phase.preFetch).countP (isDoneWith Ctr.succ)
    rw [countP_set_same (isDoneWith Ctr.succ) Phase.preFetch hp rfl]
    exact hinv.succEq
  · show c.failC =
      (c.threads.set t Phase.preFetch).countP (isDoneWith Ctr.fail)
    rw [countP_set_same (isDoneWith Ctr.fail) Phase.preFetch hp rfl]
    exact hinv.failEq
  · show c.fetchCount =
      (c.threads.set t Phase.preFetch).countP isInFetchP +
        ((c.threads.set t Phase.preFetch).countP (isDoneWith Ctr.succ) +
          (c.threads.set t Phase.preFetch).countP (isDoneWith Ctr.fail))
    rw [countP_set_same isInFetchP Phase.preFetch hp rfl,
      countP_set_same (isDoneWith Ctr.succ) Phase.preFetch hp rfl,
      countP_set_same (isDoneWith Ctr.fail) Phase.preFetch hp rfl]
    exact hinv.fetchEq
  · show (c.threads.set t Phase.preFetch).countP (isDoneWith Ctr.silent) = 0
    rw [countP_set_same (isDoneWith Ctr.silent) Phase.preFetch hp rfl]
    exact hinv.noSilent
  · intro h
    show (c.threads.set t Phase.preFetch).countP (isDoneWith Ctr.fail) = 0
    rw [countP_set_same (isDoneWith Ctr.fail) Phase.preFetch hp rfl]
    exact hinv.failNone h
  · intro h
    show (c.threads.set t Phase.preFetch).countP (isDoneWith Ctr.succ) = 0
    rw [countP_set_same (isDoneWith Ctr.succ) Phase.preFetch hp rfl]
    exact hinv.succSome h

/-- Invariant preservation: a thread finds the entry and turns to wait
on its mutex. -/
theorem inv_enterFound (c : Config V E) (t : Nat) (e : CEntry V E)
    (hp : c.threads[t]? = some Phase.start) (he : c.entry = some e)
    (hinv : Inv now fe c) :
    Inv now fe { c with threads := c.threads.set t Phase.waitEntry } := by
  obtain ⟨hlt, -⟩ := List.getElem?_eq_some_iff.mp hp
  have hset := holder_set_iff c.threads t Phase.waitEntry hlt
  refine ⟨?_, ?_, ?_, ?_, ?_, ?_, ?_, ?_, ?_, ?_, ?_⟩
  · intro u e' heq hlock
    obtain ⟨hold, huniq⟩ := hinv.lockSome u e' heq hlock
    have hut : u ≠ t := by
      rintro rfl
      rcases hold with h | h <;> rw [hp] at h <;> cases h
    refine ⟨(hset u).mpr (Or.inr ⟨hut, hold⟩), ?_⟩
    intro u' hu'
    rcases (hset u').mp hu' with ⟨rfl, h | h⟩ | ⟨-, hold'⟩
    · cases h
    · cases h
    · exact huniq u' hold'
  · intro e' heq hlock u hu
    rcases (hset u).mp hu with ⟨rfl, h | h⟩ | ⟨-, hold⟩
    · cases h
    · cases h
    · exact hinv.lockNone e' heq hlock u hold
  · intro h
    rw [h] at he
    exact Option.noConfusion he
  · intro u hu
    by_cases hut : u = t
    · subst hut
      rw [List.getElem?_set_self hlt] at hu
      cases hu
    · rw [List.getElem?_set_ne (fun h => hut h.symm)] at hu
      exact hinv.preStale u hu
  · show c.hitC =
      (c.threads.set t Phase.waitEntry).countP (isDoneWith Ctr.hit)
    rw [countP_set_same (isDoneWith Ctr.hit) Phase.waitEntry hp rfl]
    exact hinv.hitEq
  · show c.succC =
      (c.threads.set t Phase.waitEntry).countP (isDoneWith Ctr.succ)
    rw [countP_set_same (isDoneWith Ctr.succ) Phase.waitEntry hp rfl]
    exact hinv.succEq
  · show c.failC =
      (c.threads.set t Phase.waitEntry).countP (isDoneWith Ctr.fail)
    rw [countP_set_same (isDoneWith Ctr.fail) Phase.waitEntry hp rfl]
    exact hinv.failEq
  · show c.fetchCount =
      (c.threads.set t Phase.waitEntry).countP isInFetchP +
        ((c.threads.set t Phase.waitEntry).countP (isDoneWith Ctr.succ) +
          (c.threads.set t Phase.waitEntry).countP (isDoneWith Ctr.fail))
    rw [countP_set_same isInFetchP Phase.waitEntry hp rfl,
      countP_set_same (isDoneWith Ctr.succ) Phase.waitEntry hp rfl,
      countP_set_same (isDoneWith Ctr.fail) Phase.waitEntry hp rfl]
    exact hinv.fetchEq
  · show (c.threads.set t Phase.waitEntry).countP (isDoneWith Ctr.silent) = 0
    rw [countP_set_same (isDoneWith Ctr.silent) Phase.waitEntry hp rfl]
    exact hinv.noSilent
  · intro h
    show (c.threads.set t Phase.waitEntry).countP (isDoneWith Ctr.fail) = 0
    rw [countP_set_same (isDoneWith Ctr.fail) Phase.waitEntry hp rfl]
    exact hinv.failNone h
  · intro h
    show (c.threads.set t Phase.waitEntry).countP (isDoneWith Ctr.succ) = 0
    rw [countP_set_same (isDoneWith Ctr.succ) Phase.waitEntry hp rfl]
    exact hinv.succSome h

/-- Invariant preservation: a waiting thread takes the free mutex, sees
a fresh snapshot, and returns it as a hit. -/
theorem inv_acquireHit (c : Config V E) (t : Nat) (e : CEntry V E)
    (hp : c.threads[t]? = some Phase.waitEntry) (he : c.entry = some e)
    (hl : e.locked = none) (h0 : e.expires ≠ 0) (hn : e.expires > now)
    (hinv : Inv now fe c) :
    Inv now fe { c with
      hitC := c.hitC + 1,
      threads := c.threads.set t (Phase.done e.value e.err Ctr.hit) } := by
  obtain ⟨hlt, -⟩ := List.getElem?_eq_some_iff.mp hp
  have hset := holder_set_iff c.threads t (Phase.done e.value e.err Ctr.hit) hlt
  refine ⟨?_, ?_, ?_, ?_, ?_, ?_, ?_, ?_, ?_, ?_, ?_⟩
  · intro u e' heq hlock
    rw [he] at heq
    obtain rfl : e = e' := by simpa using heq
    rw [hl] at hlock
    exact Option.noConfusion hlock
  · intro e' heq hlock u hu
    rcases (hset u).mp hu with ⟨rfl, h | h⟩ | ⟨-, hold⟩
    · cases h
    · cases h
    · exact hinv.lockNone e' heq hlock u hold
  · intro h
    rw [h] at he
    exact Option.noConfusion he
  · intro u hu
    by_cases hut : u = t
    · subst hut
      rw [List.getElem?_set_self hlt] at hu
      cases hu
    · rw [List.getElem?_set_ne (fun h => hut h.symm)] at hu
      exact hinv.preStale u hu
  · show c.hitC + 1 =
      (c.threads.set t (Phase.done e.value e.err Ctr.hit)).countP
        (isDoneWith Ctr.hit)
    rw [countP_set_incr (isDoneWith Ctr.hit)
      (Phase.done e.value e.err Ctr.hit) hp rfl rfl]
    rw [hinv.hitEq]
    rfl
  · show c.succC =
      (c.threads.set t (Phase.done e.value e.err Ctr.hit)).countP
        (isDoneWith Ctr.succ)
    rw [countP_set_same (isDoneWith Ctr.succ)
      (Phase.done e.value e.err Ctr.hit) hp rfl]
    exact hinv.succEq
  · show c.failC =
      (c.threads.set t (Phase.done e.value e.err Ctr.hit)).countP
        (isDoneWith Ctr.fail)
    rw [countP_set_same (isDoneWith Ctr.fail)
      (Phase.done e.value e.err Ctr.hit) hp rfl]
    exact hinv.failEq
  · show c.fetchCount =
      (c.threads.set t (Phase.done e.value e.err Ctr.hit)).countP isInFetchP +
        ((c.threads.set t (Phase.done e.value e.err Ctr.hit)).countP
          (isDoneWith Ctr.succ) +
         (c.threads.set t (Phase.done e.value e.err Ctr.hit)).countP
          (isDoneWith Ctr.fail))
    rw [countP_set_same isInFetchP (Phase.done e.value e.err Ctr.hit) hp rfl,
      countP_set_same (isDoneWith Ctr.succ)
        (Phase.done e.value e.err Ctr.hit) hp rfl,
      countP_set_same (isDoneWith Ctr.fail)
        (Phase.done e.value e.err Ctr.hit) hp rfl]
    exact hinv.fetchEq
  · show (c.threads.set t (Phase.done e.value e.err Ctr.hit)).countP
      (isDoneWith Ctr.silent) = 0
    rw [countP_set_same (isDoneWith Ctr.silent)
      (Phase.done e.value e.err Ctr.hit) hp rfl]
    exact hinv.noSilent
  · intro h
    show (c.threads.set t (Phase.done e.value e.err Ctr.hit)).countP
      (isDoneWith Ctr.fail) = 0
    rw [countP_set_same (isDoneWith Ctr.fail)
      (Phase.done e.value e.err Ctr.hit) hp rfl]
    exact hinv.failNone h
  · intro h
    show (c.threads.set t (Phase.done e.value e.err Ctr.hit)).countP
      (isDoneWith Ctr.succ) = 0
    rw [countP_set_same (isDoneWith Ctr.succ)
      (Phase.done e.value e.err Ctr.hit) hp rfl]
    exact hinv.succSome h

/-- Invariant preservation: a waiting thread takes the free mutex, sees
a stale or zero snapshot, and keeps the mutex towards the re-check. -/
theorem inv_acquireStale (hnow : 0 ≤ now) (c : Config V E) (t : Nat)
    (e : CEntry V E)
    (hp : c.threads[t]? = some Phase.waitEntry) (he : c.entry = some e)
    (hl : e.locked = none) (hs : ¬ (e.expires ≠ 0 ∧ e.expires > now))
    (hinv : Inv now fe c) :
    Inv now fe { c with
      entry := some { e with locked := some t },
      threads := c.threads.set t Phase.preFetch } := by
  obtain ⟨hlt, -⟩ := List.getElem?_eq_some_iff.mp hp
  have hset := holder_set_iff c.threads t Phase.preFetch hlt
  have hstale : e.expires ≤ now := by
    by_cases h0 : e.expires = 0
    · omega
    · have := fun h => hs ⟨h0, h⟩
      omega
  refine ⟨?_, ?_, ?_, ?_, ?_, ?_, ?_, ?_, ?_, ?_, ?_⟩
  · intro u e' heq hlock
    obtain rfl : ({ e with locked := some t } : CEntry V E) = e' := by
      simpa using heq
    obtain rfl : t = u := by simpa using hlock
    refine ⟨Or.inl ?_, ?_⟩
    · show (c.threads.set t Phase.preFetch)[t]? = some Phase.preFetch
      simpa using List.getElem?_set_self hlt
    · intro u' hu'
      rcases (hset u').mp hu' with ⟨rfl, -⟩ | ⟨hne, hold⟩
      · rfl
      · exact absurd hold (hinv.lockNone e he hl u')
  · intro e' heq hlock
    obtain rfl : ({ e with locked := some t } : CEntry V E) = e' := by
      simpa using heq
    simp at hlock
  · intro h
    exact Option.noConfusion h
  · intro u hu
    exact ⟨{ e with locked := some t }, rfl, hstale⟩
  · show c.hitC = (c.threads.set t Phase.preFetch).countP (isDoneWith Ctr.hit)
    rw [countP_set_same (isDoneWith Ctr.hit) Phase.preFetch hp rfl]
    exact hinv.hitEq
  · show c.succC = (c.threads.set t Phase.preFetch).countP (isDoneWith Ctr.succ)
    rw [countP_set_same (isDoneWith Ctr.succ) Phase.preFetch hp rfl]
    exact hinv.succEq
  · show c.failC = (c.threads.set t Phase.preFetch).countP (isDoneWith Ctr.fail)
    rw [countP_set_same (isDoneWith Ctr.fail) Phase.preFetch hp rfl]
    exact hinv.failEq
  · show c.fetchCount =
      (c.threads.set t Phase.preFetch).countP isInFetchP +
        ((c.threads.set t Phase.preFetch).countP (isDoneWith Ctr.succ) +
          (c.threads.set t Phase.preFetch).countP (isDoneWith Ctr.fail))
    rw [countP_set_same isInFetchP Phase.preFetch hp rfl,
      countP_set_same (isDoneWith Ctr.succ) Phase.preFetch hp rfl,
      countP_set_same (isDoneWith Ctr.fail) Phase.preFetch hp rfl]
    exact hinv.fetchEq
  · show (c.threads.set t Phase.preFetch).countP (isDoneWith Ctr.silent) = 0
    rw [countP_set_same (isDoneWith Ctr.silent) Phase.preFetch hp rfl]
    exact hinv.noSilent
  · intro h
    show (c.threads.set t Phase.preFetch).countP (isDoneWith Ctr.fail) = 0
    rw [countP_set_same (isDoneWith Ctr.fail) Phase.preFetch hp rfl]
    exact hinv.failNone h
  · intro h
    show (c.threads.set t Phase.preFetch).countP (isDoneWith Ctr.succ) = 0
    rw [countP_set_same (isDoneWith Ctr.succ) Phase.preFetch hp rfl]
    exact hinv.succSome h

/-- A thread at `preFetch` or `inFetch` owns the entry mutex. -/
theorem locked_of_holder (c : Config V E) (t : Nat) (e : CEntry V E)
    (he : c.entry = some e) (hh : holder c.threads t)
    (hinv : Inv now fe c) : e.locked = some t := by
  cases hlck : e.locked with
  | none => exact absurd hh (hinv.lockNone e he hlck t)
  | some w =>
    obtain ⟨-, huniq⟩ := hinv.lockSome w e he hlck
    rw [huniq t hh]

/-- Invariant preservation: the re-check fails and `fetch` begins. -/
theorem inv_startFetch (c : Config V E) (t : Nat) (e : CEntry V E)
    (hp : c.threads[t]? = some Phase.preFetch) (he : c.entry = some e)
    (hn : ¬ e.expires > now) (hinv : Inv now fe c) :
    Inv now fe { c with
      fetchCount := c.fetchCount + 1,
      threads := c.threads.set t Phase.inFetch } := by
  obtain ⟨hlt, -⟩ := List.getElem?_eq_some_iff.mp hp
  have hset := holder_set_iff c.threads t Phase.inFetch hlt
  have hlockt : e.locked = some t :=
    locked_of_holder c t e he (Or.inl hp) hinv
  obtain ⟨-, huniq⟩ := hinv.lockSome t e he hlockt
  refine ⟨?_, ?_, ?_, ?_, ?_, ?_, ?_, ?_, ?_, ?_, ?_⟩
  · intro u e' heq hlock
    rw [he] at heq
    obtain rfl : e = e' := by simpa using heq
    rw [hlockt] at hlock
    obtain rfl : t = u := by simpa using hlock
    refine ⟨Or.inr ?_, ?_⟩
    · show (c.threads.set t Phase.inFetch)[t]? = some Phase.inFetch
      simpa using List.getElem?_set_self hlt
    · intro u' hu'
      rcases (hset u').mp hu' with ⟨rfl, -⟩ | ⟨hne, hold⟩
      · rfl
      · exact huniq u' hold
  · intro e' heq hlock
    rw [he] at heq
    obtain rfl : e = e' := by simpa using heq
    rw [hlockt] at hlock
    exact Option.noConfusion hlock
  · intro h
    rw [h] at he
    exact Option.noConfusion he
  · intro u hu
    by_cases hut : u = t
    · subst hut
      rw [List.getElem?_set_self hlt] at hu
      cases hu
    · rw [List.getElem?_set_ne (fun h => hut h.symm)] at hu
      exact absurd (huniq u (Or.inl hu)) hut
  · show c.hitC = (c.threads.set t Phase.inFetch).countP (isDoneWith Ctr.hit)
    rw [countP_set_same (isDoneWith Ctr.hit) Phase.inFetch hp rfl]
    exact hinv.hitEq
  · show c.succC = (c.threads.set t Phase.inFetch).countP (isDoneWith Ctr.succ)
    rw [countP_set_same (isDoneWith Ctr.succ) Phase.inFetch hp rfl]
    exact hinv.succEq
  · show c.failC = (c.threads.set t Phase.inFetch).countP (isDoneWith Ctr.fail)
    rw [countP_set_same (isDoneWith Ctr.fail) Phase.inFetch hp rfl]
    exact hinv.failEq
  · show c.fetchCount + 1 =
      (c.threads.set t Phase.inFetch).countP isInFetchP +
        ((c.threads.set t Phase.inFetch).countP (isDoneWith Ctr.succ) +
          (c.threads.set t Phase.inFetch).countP (isDoneWith Ctr.fail))
    rw [countP_set_incr isInFetchP Phase.inFetch hp rfl rfl,
      countP_set_same (isDoneWith Ctr.succ) Phase.inFetch hp rfl,
      countP_set_same (isDoneWith Ctr.fail) Phase.inFetch hp rfl]
    have hfq : c.fetchCount = c.threads.countP isInFetchP +
        (c.threads.countP (isDoneWith Ctr.succ) +
          c.threads.countP (isDoneWith Ctr.fail)) := hinv.fetchEq
    omega
  · show (c.threads.set t Phase.inFetch).countP (isDoneWith Ctr.silent) = 0
    rw [countP_set_same (isDoneWith Ctr.silent) Phase.inFetch hp rfl]
    exact hinv.noSilent
  · intro h
    show (c.threads.set t Phase.inFetch).countP (isDoneWith Ctr.fail) = 0
    rw [countP_set_same (isDoneWith Ctr.fail) Phase.inFetch hp rfl]
    exact hinv.failNone h
  · intro h
    show (c.threads.set t Phase.inFetch).countP (isDoneWith Ctr.succ) = 0
    rw [countP_set_same (isDoneWith Ctr.succ) Phase.inFetch hp rfl]
    exact hinv.succSome h

/-- Invariant preservation: `fetch` returns `(fv, fe)` and the thread
publishes it, fires the matching counter, and releases the mutex. -/
theorem inv_endFetch (c : Config V E) (t : Nat) (e : CEntry V E)
    (hp : c.threads[t]? = some Phase.inFetch) (he : c.entry = some e)
    (hinv : Inv now fe c) :
    Inv now fe { c with
      entry := some ⟨none, now + ttlOf sTTL fTTL fe, fv, fe⟩,
      succC := c.succC + succIncr fe,
      failC := c.failC + failIncr fe,
      threads := c.threads.set t (Phase.done fv fe (retCtr fe)) } := by
  obtain ⟨hlt, -⟩ := List.getElem?_eq_some_iff.mp hp
  have hset := holder_set_iff c.threads t (Phase.done fv fe (retCtr fe)) hlt
  have hlockt : e.locked = some t :=
    locked_of_holder c t e he (Or.inr hp) hinv
  obtain ⟨-, huniq⟩ := hinv.lockSome t e he hlockt
  refine ⟨?_, ?_, ?_, ?_, ?_, ?_, ?_, ?_, ?_, ?_, ?_⟩
  · intro u e' heq hlock
    obtain rfl : (⟨none, now + ttlOf sTTL fTTL fe, fv, fe⟩ : CEntry V E) = e' := by
      simpa using heq
    exact Option.noConfusion hlock
  · intro e' heq hlock u hu
    rcases (hset u).mp hu with ⟨rfl, h | h⟩ | ⟨hne, hold⟩
    · cases h
    · cases h
    · exact absurd (huniq u hold) hne
  · intro h
    exact Option.noConfusion h
  · intro u hu
    by_cases hut : u = t
    · subst hut
      rw [List.getElem?_set_self hlt] at hu
      cases hu
    · rw [List.getElem?_set_ne (fun h => hut h.symm)] at hu
      exact absurd (huniq u (Or.inl hu)) hut
  · show c.hitC =
      (c.threads.set t (Phase.done fv fe (retCtr fe))).countP (isDoneWith Ctr.hit)
    rw [countP_set_same (isDoneWith Ctr.hit) (Phase.done fv fe (retCtr fe)) hp
      (by cases fe <;> rfl)]
    exact hinv.hitEq
  · show c.succC + succIncr fe =
      (c.threads.set t (Phase.done fv fe (retCtr fe))).countP (isDoneWith Ctr.succ)
    cases fe with
    | none =>
      rw [countP_set_incr (isDoneWith Ctr.succ)
        (Phase.done fv none (retCtr (E := E) none)) hp rfl rfl]
      rw [hinv.succEq]
      rfl
    | some err =>
      rw [countP_set_same (isDoneWith Ctr.succ)
        (Phase.done fv (some err) (retCtr (some err))) hp rfl]
      exact hinv.succEq
  · show c.failC + failIncr fe =
      (c.threads.set t (Phase.done fv fe (retCtr fe))).countP (isDoneWith Ctr.fail)
    cases fe with
    | none =>
      rw [countP_set_same (isDoneWith Ctr.fail)
        (Phase.done fv none (retCtr (E := E) none)) hp rfl]
      exact hinv.failEq
    | some err =>
      rw [countP_set_incr (isDoneWith Ctr.fail)
        (Phase.done fv (some err) (retCtr (some err))) hp rfl rfl]
      rw [hinv.failEq]
      rfl
  · show c.fetchCount =
      (c.threads.set t (Phase.done fv fe (retCtr fe))).countP isInFetchP +
        ((c.threads.set t (Phase.done fv fe (retCtr fe))).countP
          (isDoneWith Ctr.succ) +
         (c.threads.set t (Phase.done fv fe (retCtr fe))).countP
          (isDoneWith Ctr.fail))
    have hfq : c.fetchCount = c.threads.countP isInFetchP +
        (c.threads.countP (isDoneWith Ctr.succ) +
          c.threads.countP (isDoneWith Ctr.fail)) := hinv.fetchEq
    have hdec : (c.threads.set t (Phase.done fv fe (retCtr fe))).countP
        isInFetchP + 1 = c.threads.countP isInFetchP :=
      countP_set_decr isInFetchP (Phase.done fv fe (retCtr fe)) hp rfl
        (by cases fe <;> rfl)
    cases fe with
    | none =>
      have hinc : (c.threads.set t (Phase.done fv none
          (retCtr (E := E) none))).countP (isDoneWith Ctr.succ) =
          c.threads.countP (isDoneWith Ctr.succ) + 1 :=
        countP_set_incr (isDoneWith Ctr.succ) _ hp rfl rfl
      have hsame : (c.threads.set t (Phase.done fv none
          (retCtr (E := E) none))).countP (isDoneWith Ctr.fail) =
          c.threads.countP (isDoneWith Ctr.fail) :=
        countP_set_same (isDoneWith Ctr.fail) _ hp rfl
      omega
    | some err =>
      have hinc : (c.threads.set t (Phase.done fv (some err)
          (retCtr (some err)))).countP (isDoneWith Ctr.fail) =
          c.threads.countP (isDoneWith Ctr.fail) + 1 :=
        countP_set_incr (isDoneWith Ctr.fail) _ hp rfl rfl
      have hsame : (c.threads.set t (Phase.done fv (some err)
          (retCtr (some err)))).countP (isDoneWith Ctr.succ) =
          c.threads.countP (isDoneWith Ctr.succ) :=
        countP_set_same (isDoneWith Ctr.succ) _ hp rfl
      omega
  · show (c.threads.set t (Phase.done fv fe (retCtr fe))).countP
      (isDoneWith Ctr.silent) = 0
    rw [countP_set_same (isDoneWith Ctr.silent) (Phase.done fv fe (retCtr fe))
      hp (by cases fe <;> rfl)]
    exact hinv.noSilent
  · intro h
    show (c.threads.set t (Phase.done fv fe (retCtr fe))).countP
      (isDoneWith Ctr.fail) = 0
    obtain rfl : fe = none := Option.isNone_iff_eq_none.mp h
    rw [countP_set_same (isDoneWith Ctr.fail)
      (Phase.done fv none (retCtr (E := E) none)) hp rfl]
    exact hinv.failNone h
  · intro h
    show (c.threads.set t (Phase.done fv fe (retCtr fe))).countP
      (isDoneWith Ctr.succ) = 0
    cases fe with
    | none => simp at h
    | some err =>
      rw [countP_set_same (isDoneWith Ctr.succ)
        (Phase.done fv (some err) (retCtr (some err))) hp rfl]
      exact hinv.succSome h

/-- The invariant is preserved by every step (the fresh-re-check step
cannot fire at all from an invariant state: the thread holding the mutex
at `preFetch` saw a stale entry, and nobody else can have republished). -/
theorem inv_step (hnow : 0 ≤ now) (c c' : Config V E)
    (hs : Step now sTTL fTTL fv fe c c') (hinv : Inv now fe c) :
    Inv now fe c' := by
  cases hs with
  | enterMiss t hp he => exact inv_enterMiss hnow c t hp he hinv
  | enterFound t e hp he => exact inv_enterFound c t e hp he hinv
  | acquireHit t e hp he hl h0 hn =>
    exact inv_acquireHit c t e hp he hl h0 hn hinv
  | acquireStale t e hp he hl hs =>
    exact inv_acquireStale hnow c t e hp he hl hs hinv
  | recheckFresh t e hp he hn =>
    obtain ⟨e', he', hst⟩ := hinv.preStale t hp
    rw [he] at he'
    obtain rfl : e = e' := by simpa using he'
    exact absurd hn (Int.not_lt.mpr hst)
  | startFetch t e hp he hn => exact inv_startFetch c t e hp he hn hinv
  | endFetch t e hp he => exact inv_endFetch c t e hp he hinv

/-- The invariant holds along every reachable configuration. -/
theorem inv_reach (hnow : 0 ≤ now) (c c' : Config V E)
    (hr : Reach now sTTL fTTL fv fe c c') (hinv : Inv now fe c) :
    Inv now fe c' := by
  induction hr with
  | refl => exact hinv
  | tail hr hs ih => exact inv_step hnow _ _ hs ih

/-- The invariant holds initially for any lock-free entry shape. -/
theorem inv_init (M : Nat) (ent : Option (CEntry V E))
    (hfree : InitFree ent) : Inv now fe (initConfig M ent) := by
  have hall : ∀ ph ∈ (initConfig M ent (V := V) (E := E)).threads,
      ph = Phase.start := by
    intro ph hph
    exact List.eq_of_mem_replicate hph
  have hz : ∀ p : Phase V E → Bool, p Phase.start = false →
      (List.replicate M (Phase.start : Phase V E)).countP p = 0 := by
    intro p hp
    apply countP_zero_of_getElem
    intro i b hi
    have hb : b = Phase.start :=
      List.eq_of_mem_replicate (List.mem_iff_getElem?.mpr ⟨i, hi⟩)
    rw [hb, hp]
  have hnh : ∀ u, ¬ holder (initConfig M ent (V := V) (E := E)).threads u :=
    no_holder_of_start _ hall
  refine ⟨?_, ?_, ?_, ?_, ?_, ?_, ?_, ?_, ?_, ?_, ?_⟩
  · intro u e heq hlock
    cases hent : ent with
    | none => rw [hent] at heq; exact Option.noConfusion heq
    | some e' =>
      rw [hent] at heq
      obtain rfl : e' = e := by simpa [initConfig] using heq
      rw [hent] at hfree
      have hfl : e'.locked = none := hfree
      rw [hfl] at hlock
      exact Option.noConfusion hlock
  · intro e heq hlock u
    exact hnh u
  · intro h ph hph
    exact hall ph hph
  · intro u hu
    have hb : Phase.preFetch = (Phase.start : Phase V E) :=
      List.eq_of_mem_replicate (List.mem_iff_getElem?.mpr ⟨u, hu⟩)
    cases hb
  · exact (hz _ rfl).symm
  · exact (hz _ rfl).symm
  · exact (hz _ rfl).symm
  · show 0 = (List.replicate M (Phase.start : Phase V E)).countP isInFetchP +
      ((List.replicate M (Phase.start : Phase V E)).countP (isDoneWith Ctr.succ) +
        (List.replicate M (Phase.start : Phase V E)).countP (isDoneWith Ctr.fail))
    rw [hz _ rfl, hz _ rfl, hz _ rfl]
  · exact hz _ rfl
  · intro h
    exact hz _ rfl
  · intro h
    exact hz _ rfl

/-- The publication invariant holds initially: the entry starts Empty or
Stale, hence unpublished, and no call has completed. -/
theorem invP_init (M : Nat) (ent : Option (CEntry V E))
    (hok : InitOk now ent) :
    InvP now sTTL fTTL fv fe (initConfig M ent) := by
  constructor
  · intro hpub
    obtain ⟨e, he, hgt⟩ := hpub
    exfalso
    cases hent : ent with
    | none =>
      rw [hent] at he
      exact Option.noConfusion he
    | some e' =>
      rw [hent] at he hok
      obtain rfl : e' = e := by simpa [initConfig] using he
      have hle : e'.expires ≤ now := hok.2
      omega
  · intro t v e k hp
    have hb : Phase.done v e k = (Phase.start : Phase V E) :=
      List.eq_of_mem_replicate (List.mem_iff_getElem?.mpr ⟨t, hp⟩)
    cases hb

/-- The publication invariant is preserved by every step, provided the
TTL matching the fetch outcome is positive. -/
theorem invP_step (hnow : 0 ≤ now) (httl : 0 < ttlOf sTTL fTTL fe)
    (c c' : Config V E) (hs : Step now sTTL fTTL fv fe c c')
    (hinv : Inv now fe c) (hip : InvP now sTTL fTTL fv fe c) :
    InvP now sTTL fTTL fv fe c' := by
  have hinv' := inv_step hnow c c' hs hinv
  cases hs with
  | enterMiss t hp0 he =>
    obtain ⟨hlt, -⟩ := List.getElem?_eq_some_iff.mp hp0
    constructor
    · intro hpub
      obtain ⟨e, he', hgt⟩ := hpub
      obtain rfl : (⟨some t, 0, default, none⟩ : CEntry V E) = e := by
        simpa using he'
      simp at hgt
      omega
    · intro u v e k hdone
      by_cases hut : u = t
      · subst hut
        rw [List.getElem?_set_self hlt] at hdone
        cases hdone
      · rw [List.getElem?_set_ne (fun h => hut h.symm)] at hdone
        have := hinv.noEntry he _ (List.mem_iff_getElem?.mpr ⟨u, hdone⟩)
        cases this
  | enterFound t e hp0 he =>
    obtain ⟨hlt, -⟩ := List.getElem?_eq_some_iff.mp hp0
    have hset := holder_set_iff c.threads t Phase.waitEntry hlt
    constructor
    · intro hpub
      obtain ⟨hent, hnoh, hfc⟩ := hip.pubEntry hpub
      refine ⟨hent, ?_, hfc⟩
      intro u hu
      rcases (hset u).mp hu with ⟨rfl, h | h⟩ | ⟨-, hold⟩
      · cases h
      · cases h
      · exact hnoh u hold
    · intro u v e' k hdone
      by_cases hut : u = t
      · subst hut
        rw [List.getElem?_set_self hlt] at hdone
        cases hdone
      · rw [List.getElem?_set_ne (fun h => hut h.symm)] at hdone
        exact hip.pubDone u v e' k hdone
  | acquireHit t e hp0 he hl h0 hn =>
    obtain ⟨hlt, -⟩ := List.getElem?_eq_some_iff.mp hp0
    have hset := holder_set_iff c.threads t (Phase.done e.value e.err Ctr.hit) hlt
    have hpubc : Published now c := ⟨e, he, hn⟩
    obtain ⟨hent, hnoh, hfc⟩ := hip.pubEntry hpubc
    have hee : e = ⟨none, now + ttlOf sTTL fTTL fe, fv, fe⟩ := by
      rw [he] at hent
      simpa using hent
    constructor
    · intro _hpub
      refine ⟨hent, ?_, hfc⟩
      intro u hu
      rcases (hset u).mp hu with ⟨rfl, h | h⟩ | ⟨-, hold⟩
      · cases h
      · cases h
      · exact hnoh u hold
    · intro u v e' k hdone
      by_cases hut : u = t
      · subst hut
        rw [List.getElem?_set_self hlt] at hdone
        obtain ⟨rfl, rfl, rfl⟩ :
            e.value = v ∧ e.err = e' ∧ Ctr.hit = k := by
          simpa using hdone
        rw [hee]
        exact ⟨⟨e, he, hn⟩, rfl, rfl⟩
      · rw [List.getElem?_set_ne (fun h => hut h.symm)] at hdone
        exact hip.pubDone u v e' k hdone
  | acquireStale t e hp0 he hl hs =>
    obtain ⟨hlt, -⟩ := List.getElem?_eq_some_iff.mp hp0
    have hnp : ¬ Published now c := by
      rintro ⟨e2, he2, hgt⟩
      rw [he] at he2
      obtain rfl : e = e2 := by simpa using he2
      obtain ⟨hent, -, -⟩ := hip.pubEntry ⟨e, he, hgt⟩
      rw [he] at hent
      obtain rfl : e = (⟨none, now + ttlOf sTTL fTTL fe, fv, fe⟩ : CEntry V E) := by
        simpa using hent
      exact hs ⟨by simp; omega, hgt⟩
    constructor
    · intro hpub
      obtain ⟨e2, he2, hgt⟩ := hpub
      obtain rfl : ({ e with locked := some t } : CEntry V E) = e2 := by
        simpa using he2
      exact absurd ⟨e, he, hgt⟩ hnp
    · intro u v e' k hdone
      by_cases hut : u = t
      · subst hut
        rw [List.getElem?_set_self hlt] at hdone
        cases hdone
      · rw [List.getElem?_set_ne (fun h => hut h.symm)] at hdone
        exact absurd (hip.pubDone u v e' k hdone).1 hnp
  | recheckFresh t e hp0 he hn =>
    obtain ⟨e', he', hst⟩ := hinv.preStale t hp0
    rw [he] at he'
    obtain rfl : e = e' := by simpa using he'
    exact absurd hn (Int.not_lt.mpr hst)
  | startFetch t e hp0 he hn =>
    obtain ⟨hlt, -⟩ := List.getElem?_eq_some_iff.mp hp0
    have hnp : ¬ Published now c := by
      rintro ⟨e2, he2, hgt⟩
      rw [he] at he2
      obtain rfl : e = e2 := by simpa using he2
      exact hn hgt
    constructor
    · intro hpub
      obtain ⟨e2, he2, hgt⟩ := hpub
      exact absurd ⟨e2, he2, hgt⟩ hnp
    · intro u v e' k hdone
      by_cases hut : u = t
      · subst hut
        rw [List.getElem?_set_self hlt] at hdone
        cases hdone
      · rw [List.getElem?_set_ne (fun h => hut h.symm)] at hdone
        exact absurd (hip.pubDone u v e' k hdone).1 hnp
  | endFetch t e hp0 he =>
    obtain ⟨hlt, -⟩ := List.getElem?_eq_some_iff.mp hp0
    have hlockt : e.locked = some t :=
      locked_of_holder c t e he (Or.inr hp0) hinv
    obtain ⟨-, huniq⟩ := hinv.lockSome t e he hlockt
    have hnp : ¬ Published now c := by
      intro hpub
      obtain ⟨-, hnoh, -⟩ := hip.pubEntry hpub
      exact hnoh t (Or.inr hp0)
    have hnodone : ∀ (i : Nat) (b : Phase V E),
        c.threads[i]? = some b → isDoneP b = true → False := by
      intro i b hb hdb
      cases b with
      | done v e' k => exact hnp (hip.pubDone i v e' k hb).1
      | start => cases hdb
      | waitEntry => cases hdb
      | preFetch => cases hdb
      | inFetch => cases hdb
    have hsz : c.threads.countP (isDoneWith Ctr.succ) = 0 := by
      apply countP_zero_of_getElem
      intro i b hb
      cases hdb : isDoneWith Ctr.succ b
      · rfl
      · exfalso
        apply hnodone i b hb
        cases b with
        | done v e' k => rfl
        | start => cases hdb
        | waitEntry => cases hdb
        | preFetch => cases hdb
        | inFetch => cases hdb
    have hfz : c.threads.countP (isDoneWith Ctr.fail) = 0 := by
      apply countP_zero_of_getElem
      intro i b hb
      cases hdb : isDoneWith Ctr.fail b
      · rfl
      · exfalso
        apply hnodone i b hb
        cases b with
        | done v e' k => rfl
        | start => cases hdb
        | waitEntry => cases hdb
        | preFetch => cases hdb
        | inFetch => cases hdb
    have hone : c.threads.countP isInFetchP = 1 := by
      apply countP_one_unique isInFetchP c.threads t Phase.inFetch hp0 rfl
      intro i b hb hpb
      have hbi : b = Phase.inFetch := by
        cases b with
        | inFetch => rfl
        | start => cases hpb
        | waitEntry => cases hpb
        | preFetch => cases hpb
        | done v e' k => cases hpb
      rw [hbi] at hb
      exact huniq i (Or.inr hb)
    have hfc1 : c.fetchCount = 1 := by
      have hfq : c.fetchCount = c.threads.countP isInFetchP +
          (c.threads.countP (isDoneWith Ctr.succ) +
            c.threads.countP (isDoneWith Ctr.fail)) := hinv.fetchEq
      omega
    constructor
    · intro _hpub
      refine ⟨rfl, ?_, hfc1⟩
      intro u
      exact hinv'.lockNone ⟨none, now + ttlOf sTTL fTTL fe, fv, fe⟩ rfl rfl u
    · intro u v e' k hdone
      have hpub' : Published now
          { c with entry := some ⟨none, now + ttlOf sTTL fTTL fe, fv, fe⟩,
                   succC := c.succC + succIncr fe,
                   failC := c.failC + failIncr fe,
                   threads := c.threads.set t (Phase.done fv fe (retCtr fe)) } :=
        ⟨⟨none, now + ttlOf sTTL fTTL fe, fv, fe⟩, rfl, by
          show now + ttlOf sTTL fTTL fe > now
          omega⟩
      by_cases hut : u = t
      · subst hut
        rw [List.getElem?_set_self hlt] at hdone
        obtain ⟨rfl, rfl, rfl⟩ : fv = v ∧ fe = e' ∧ retCtr fe = k := by
          simpa using hdone
        exact ⟨hpub', rfl, rfl⟩
      · rw [List.getElem?_set_ne (fun h => hut h.symm)] at hdone
        exfalso
        exact hnodone u _ hdone rfl

/-- The publication invariant holds along every reachable
configuration. -/
theorem invP_reach (hnow : 0 ≤ now) (httl : 0 < ttlOf sTTL fTTL fe)
    (c c' : Config V E) (hr : Reach now sTTL fTTL fv fe c c')
    (hinv : Inv now fe c) (hip : InvP now sTTL fTTL fv fe c) :
    InvP now sTTL fTTL fv fe c' := by
  induction hr with
  | refl => exact hip
  | tail hr hs ih =>
    exact invP_step hnow httl _ _ hs (inv_reach hnow _ _ hr hinv) ih

/-- Mutual exclusion bounds the number of in-flight `fetch` calls by
one: an in-flight fetcher holds the entry mutex. -/
theorem nInFetch_le_one (c : Config V E) (hinv : Inv now fe c) :
    nInFetch c ≤ 1 := by
  cases hent : c.entry with
  | none =>
    have hz : nInFetch c = 0 := by
      apply countP_zero_of_getElem
      intro i b hb
      have := hinv.noEntry hent _ (List.mem_iff_getElem?.mpr ⟨i, hb⟩)
      rw [this]
      rfl
    omega
  | some e =>
    cases hlck : e.locked with
    | none =>
      have hz : nInFetch c = 0 := by
        apply countP_zero_of_getElem
        intro i b hb
        cases hdb : isInFetchP b
        · rfl
        · exfalso
          have hbi : b = Phase.inFetch := by
            cases b with
            | inFetch => rfl
            | start => cases hdb
            | waitEntry => cases hdb
            | preFetch => cases hdb
            | done v e' k => cases hdb
          rw [hbi] at hb
          exact hinv.lockNone e hent hlck i (Or.inr hb)
      omega
    | some w =>
      obtain ⟨-, huniq⟩ := hinv.lockSome w e hent hlck
      apply countP_le_one_unique isInFetchP c.threads w
      intro i b hb hpb
      have hbi : b = Phase.inFetch := by
        cases b with
        | inFetch => rfl
        | start => cases hpb
        | waitEntry => cases hpb
        | preFetch => cases hpb
        | done v e' k => cases hpb
      rw [hbi] at hb
      exact huniq i (Or.inr hb)

/-- The number of threads is constant along execution. -/
theorem reach_length (c c' : Config V E)
    (hr : Reach now sTTL fTTL fv fe c c') :
    c'.threads.length = c.threads.length := by
  induction hr with
  | refl => rfl
  | tail hr hs ih =>
    cases hs <;> simp only [List.length_set] <;> exact ih

/-- Recognizer evaluation on each phase constructor. -/
@[simp] theorem isDoneWith_start (k : Ctr) :
    isDoneWith k (Phase.start : Phase V E) = false := rfl

/-- Recognizer evaluation on each phase constructor. -/
@[simp] theorem isDoneWith_waitEntry (k : Ctr) :
    isDoneWith k (Phase.waitEntry : Phase V E) = false := rfl

/-- Recognizer evaluation on each phase constructor. -/
@[simp] theorem isDoneWith_preFetch (k : Ctr) :
    isDoneWith k (Phase.preFetch : Phase V E) = false := rfl

/-- Recognizer evaluation on each phase constructor. -/
@[simp] theorem isDoneWith_inFetch (k : Ctr) :
    isDoneWith k (Phase.inFetch : Phase V E) = false := rfl

/-- Recognizer evaluation on each phase constructor. -/
@[simp] theorem isDoneWith_done (k k' : Ctr) (v : V) (e : Option E) :
    isDoneWith k (Phase.done v e k') = (k' == k) := rfl

/-- Recognizer evaluation on each phase constructor. -/
@[simp] theorem isDoneP_start : isDoneP (Phase.start : Phase V E) = false := rfl

/-- Recognizer evaluation on each phase constructor. -/
@[simp] theorem isDoneP_waitEntry :
    isDoneP (Phase.waitEntry : Phase V E) = false := rfl

/-- Recognizer evaluation on each phase constructor. -/
@[simp] theorem isDoneP_preFetch :
    isDoneP (Phase.preFetch : Phase V E) = false := rfl

/-- Recognizer evaluation on each phase constructor. -/
@[simp] theorem isDoneP_inFetch :
    isDoneP (Phase.inFetch : Phase V E) = false := rfl

/-- Recognizer evaluation on each phase constructor. -/
@[simp] theorem isDoneP_done (v : V) (e : Option E) (k : Ctr) :
    isDoneP (Phase.done v e k) = true := rfl

/-- Phase classes partition the thread pool. -/
theorem partition_counts (l : List (Phase V E)) :
    l.countP (isDoneWith Ctr.hit) + l.countP (isDoneWith Ctr.succ) +
      l.countP (isDoneWith Ctr.fail) + l.countP (isDoneWith Ctr.silent) +
      l.countP (fun ph => !(isDoneP ph)) = l.length := by
  induction l with
  | nil => simp
  | cons hd tl ih =>
    cases hd with
    | done v e k =>
      cases k <;> simp [List.countP_cons] <;> omega
    | start =>
      simp [List.countP_cons]
      omega
    | waitEntry =>
      simp [List.countP_cons]
      omega
    | preFetch =>
      simp [List.countP_cons]
      omega
    | inFetch =>
      simp [List.countP_cons]
      omega

/-- Characterization of every complete execution from an Empty or Stale
entry with the matching TTL positive: `fetch` ran exactly once,
`IncrGetHit` fired `M - 1` times, the publishing counter fired once, and
every thread returned the published pair. -/
theorem final_characterization
    (hnow : 0 ≤ now) (httl : 0 < ttlOf sTTL fTTL fe)
    (M : Nat) (ent : Option (CEntry V E)) (hok : InitOk now ent)
    (c : Config V E)
    (hr : Reach now sTTL fTTL fv fe (initConfig M ent) c)
    (hdone : AllDone c) (hM : 1 ≤ M) :
    c.fetchCount = 1 ∧ c.hitC = M - 1 ∧
    c.succC = succIncr fe ∧ c.failC = failIncr fe ∧
    (∀ ph ∈ c.threads, ∃ k, ph = Phase.done fv fe k) := by
  have hfree : InitFree ent := by
    cases hent : ent with
    | none => exact trivial
    | some e =>
      rw [hent] at hok
      exact hok.1
  have hinv0 : Inv now fe (initConfig M ent) := inv_init M ent hfree
  have hinv := inv_reach hnow _ _ hr hinv0
  have hip := invP_reach hnow httl _ _ hr hinv0 (invP_init M ent hok)
  have hlen : c.threads.length = M := by
    have := reach_length _ _ hr
    simpa [initConfig] using this
  have hpub : Published now c := by
    have hlt0 : 0 < c.threads.length := by omega
    cases hx : c.threads[0]? with
    | none =>
      rw [List.getElem?_eq_none_iff] at hx
      omega
    | some ph =>
      have hmem : ph ∈ c.threads := List.mem_iff_getElem?.mpr ⟨0, hx⟩
      have hd := hdone ph hmem
      cases ph with
      | done v e k => exact (hip.pubDone 0 v e k hx).1
      | start => cases hd
      | waitEntry => cases hd
      | preFetch => cases hd
      | inFetch => cases hd
  obtain ⟨hent, hnoh, hfc⟩ := hip.pubEntry hpub
  have hnin : nInFetch c = 0 := by
    apply countP_zero_of_getElem
    intro i b hb
    cases hdb : isInFetchP b
    · rfl
    · exfalso
      have hbi : b = Phase.inFetch := by
        cases b with
        | inFetch => rfl
        | start => cases hdb
        | waitEntry => cases hdb
        | preFetch => cases hdb
        | done v e' k => cases hdb
      rw [hbi] at hb
      exact hnoh i (Or.inr hb)
  have hnnd : c.threads.countP (fun ph => !(isDoneP ph)) = 0 := by
    rw [List.countP_eq_zero]
    intro a ha
    rw [hdone a ha]
    simp
  have hpart := partition_counts c.threads
  have hfq : c.fetchCount = c.threads.countP isInFetchP +
      (c.threads.countP (isDoneWith Ctr.succ) +
        c.threads.countP (isDoneWith Ctr.fail)) := hinv.fetchEq
  have hnin' : c.threads.countP isInFetchP = 0 := hnin
  have hsil : c.threads.countP (isDoneWith Ctr.silent) = 0 := hinv.noSilent
  have hhit : c.hitC = c.threads.countP (isDoneWith Ctr.hit) := hinv.hitEq
  have hsucc : c.succC = c.threads.countP (isDoneWith Ctr.succ) := hinv.succEq
  have hfail : c.failC = c.threads.countP (isDoneWith Ctr.fail) := hinv.failEq
  have hfe : c.succC = succIncr fe ∧ c.failC = failIncr fe := by
    cases fe with
    | none =>
      have hf0 : c.threads.countP (isDoneWith Ctr.fail) = 0 :=
        hinv.failNone rfl
      refine ⟨?_, ?_⟩
      · show c.succC = 1
        omega
      · show c.failC = 0
        omega
    | some err =>
      have hs0 : c.threads.countP (isDoneWith Ctr.succ) = 0 :=
        hinv.succSome rfl
      refine ⟨?_, ?_⟩
      · show c.succC = 0
        omega
      · show c.failC = 1
        omega
  refine ⟨hfc, ?_, hfe.1, hfe.2, ?_⟩
  · have hsf : c.threads.countP (isDoneWith Ctr.succ) +
        c.threads.countP (isDoneWith Ctr.fail) = 1 := by omega
    omega
  · intro ph hmem
    obtain ⟨i, hi⟩ := List.mem_iff_getElem?.mp hmem
    have hd := hdone ph hmem
    cases ph with
    | done v e k =>
      obtain ⟨-, rfl, rfl⟩ := hip.pubDone i v e k hi
      exact ⟨k, rfl⟩
    | start => cases hd
    | waitEntry => cases hd
    | preFetch => cases hd
    | inFetch => cases hd

/-- Completed calls split by the counter they fired. -/
theorem done_partition (l : List (Phase V E)) :
    l.countP isDoneP =
      l.countP (isDoneWith Ctr.hit) + l.countP (isDoneWith Ctr.succ) +
        l.countP (isDoneWith Ctr.fail) + l.countP (isDoneWith Ctr.silent) := by
  induction l with
  | nil => simp
  | cons hd tl ih =>
    cases hd with
    | done v e k =>
      cases k <;> simp [List.countP_cons] <;> omega
    | start => simpa [List.countP_cons] using ih
    | waitEntry => simpa [List.countP_cons] using ih
    | preFetch => simpa [List.countP_cons] using ih
    | inFetch => simpa [List.countP_cons] using ih

/-- The Empty-or-Stale initial shape is in particular lock-free. -/
theorem initOk_free (ent : Option (CEntry V E)) (hok : InitOk now ent) :
    InitFree ent := by
  cases hent : ent with
  | none => exact trivial
  | some e =>
    rw [hent] at hok
    exact hok.1

/-- Concrete interleaving, part one: from Empty at instant 0 with TTLs
100/10, thread 0 misses, installs the locked zero entry and begins its
fetch; thread 1 then finds the entry and blocks on its mutex — the
coalesced-follower situation of the spec's scenario 1. -/
theorem trace_to_mid :
    Reach (V := Nat) (E := Unit) 0 100 10 7 none (initConfig 2 none)
      ⟨some ⟨some 0, 0, 0, none⟩, 0, 0, 0, 1,
        [Phase.inFetch, Phase.waitEntry]⟩ := by
  refine Relation.ReflTransGen.head (Step.enterMiss _ 0 rfl rfl) ?_
  refine Relation.ReflTransGen.head
    (Step.startFetch _ 0 _ rfl rfl (by decide)) ?_
  refine Relation.ReflTransGen.head (Step.enterFound _ 1 _ rfl rfl) ?_
  exact Relation.ReflTransGen.refl

/-- Concrete interleaving, part two: thread 0 publishes `(7, nil)` and
the woken follower records a hit on the fresh snapshot. -/
theorem trace_mid_to_fin :
    Reach (V := Nat) (E := Unit) 0 100 10 7 none
      ⟨some ⟨some 0, 0, 0, none⟩, 0, 0, 0, 1,
        [Phase.inFetch, Phase.waitEntry]⟩
      ⟨some ⟨none, 100, 7, none⟩, 1, 1, 0, 1,
        [Phase.done 7 none Ctr.succ, Phase.done 7 none Ctr.hit]⟩ := by
  refine Relation.ReflTransGen.head (Step.endFetch _ 0 _ rfl rfl) ?_
  refine Relation.ReflTransGen.head
    (Step.acquireHit _ 1 _ rfl rfl rfl (by decide) (by decide)) ?_
  exact Relation.ReflTransGen.refl

/-- Complete concrete interleaving of two callers from Empty: the
leader fetches once and the follower coalesces, ending with
`IncrGetHit = 1`, `IncrGetSuccess = 1`, one fetch invocation, and both
callers returning `(7, nil)`. -/
theorem trace_two_callers :
    Reach (V := Nat) (E := Unit) 0 100 10 7 none (initConfig 2 none)
      ⟨some ⟨none, 100, 7, none⟩, 1, 1, 0, 1,
        [Phase.done 7 none Ctr.succ, Phase.done 7 none Ctr.hit]⟩ :=
  Relation.ReflTransGen.trans trace_to_mid trace_mid_to_fin

/-- Concrete interleaving with `successTTL = 0` at instant 1: the
published entry is instantly stale, so the blocked follower re-runs
`fetch` after waking — two invocations despite the two calls being
concurrent from Empty. -/
theorem trace_zero_ttl :
    Reach (V := Nat) (E := Unit) 1 0 0 7 none (initConfig 2 none)
      ⟨some ⟨none, 1, 7, none⟩, 0, 2, 0, 2,
        [Phase.done 7 none Ctr.succ, Phase.done 7 none Ctr.succ]⟩ := by
  refine Relation.ReflTransGen.head (Step.enterMiss _ 0 rfl rfl) ?_
  refine Relation.ReflTransGen.head (Step.enterFound _ 1 _ rfl rfl) ?_
  refine Relation.ReflTransGen.head
    (Step.startFetch _ 0 _ rfl rfl (by decide)) ?_
  refine Relation.ReflTransGen.head (Step.endFetch _ 0 _ rfl rfl) ?_
  refine Relation.ReflTransGen.head
    (Step.acquireStale _ 1 _ rfl rfl rfl (by decide)) ?_
  refine Relation.ReflTransGen.head
    (Step.startFetch _ 1 _ rfl rfl (by decide)) ?_
  refine Relation.ReflTransGen.head (Step.endFetch _ 1 _ rfl rfl) ?_
  exact Relation.ReflTransGen.refl

end Conc

/-- C5: a `Get` that finds an entry whose snapshot has `expires ≠ 0` and
`expires > now` returns the stored `(value, err)` pair unchanged — a
cached error is surfaced verbatim, a hit exactly like a cached success —
emits exactly one `IncrGetHit` and no other counter, and does not invoke
`fetch`. -/
theorem C5_cached_pair_is_hit (c : ICache K V E) (key : K) (now : Int)
    (f : V × Option E) (e : EntryS V E)
    (hl : c.core.items.lookup key = some e)
    (h0 : e.expires ≠ 0) (hn : e.expires > now) :
    (c.get key now f).value = e.value ∧
    (c.get key now f).err = e.err ∧
    (c.get key now f).events = [Event.hit] ∧
    (c.get key now f).fetched = false := by
  rw [get_hit_of_fresh c key now f e hl h0 hn]
  exact ⟨rfl, rfl, rfl, rfl⟩

/-- Witness for C5 at a concrete cache holding a fresh cached error:
the error is returned verbatim as a hit without running `fetch`. -/
theorem C5_witness :
    let c : ICache Nat Nat Unit := ⟨⟨2, [(0, ⟨15, 3, some ()⟩)]⟩, 100, 10⟩
    (c.get 0 10 (7, none)).value = 3 ∧
    (c.get 0 10 (7, none)).err = some () ∧
    (c.get 0 10 (7, none)).events = [Event.hit] ∧
    (c.get 0 10 (7, none)).fetched = false :=
  C5_cached_pair_is_hit _ 0 10 (7, none) ⟨15, 3, some ()⟩ rfl
    (by decide) (by decide)

/-- C6: whenever `Get` invokes `fetch` and it returns `(v, e)`, the
entry's fields become exactly `v` and `e`, `expires` becomes `now`
plus the TTL matching `e`, exactly the one matching counter fires, and
the call returns exactly `(v, e)` unwrapped. -/
theorem C6_publish_exact (c : ICache K V E) (key : K) (now : Int)
    (fv : V) (fe : Option E) (hsz : 1 ≤ c.core.size)
    (hf : (c.get key now (fv, fe)).fetched = true) :
    (c.get key now (fv, fe)).value = fv ∧
    (c.get key now (fv, fe)).err = fe ∧
    (c.get key now (fv, fe)).cache.core.items.lookup key =
      some ⟨now + ttlFor c fe, fv, fe⟩ ∧
    (c.get key now (fv, fe)).events.countP isHitE = 0 ∧
    ((c.get key now (fv, fe)).events.countP isSuccE =
      if fe.isNone then 1 else 0) ∧
    ((c.get key now (fv, fe)).events.countP isFailE =
      if fe.isNone then 0 else 1) := by
  obtain ⟨h1, h2, h3, -, -, h6, h7, h8⟩ := get_publishes c key now fv fe hsz hf
  exact ⟨h1, h2, h3, h6, h7, h8⟩

/-- Witness for C6 at a concrete failed fetch: the error is stored under
`failedTTL` and `IncrGetFailed` fires exactly once. -/
theorem C6_witness :
    let c : ICache Nat Nat Unit := ⟨⟨2, []⟩, 100, 10⟩
    (c.get 0 5 (0, some ())).value = 0 ∧
    (c.get 0 5 (0, some ())).err = some () ∧
    (c.get 0 5 (0, some ())).cache.core.items.lookup 0 =
      some ⟨5 + ttlFor c (some ()), 0, some ()⟩ ∧
    (c.get 0 5 (0, some ())).events.countP isHitE = 0 ∧
    ((c.get 0 5 (0, some ())).events.countP isSuccE =
      if (some ()).isNone then 1 else 0) ∧
    ((c.get 0 5 (0, some ())).events.countP isFailE =
      if (some ()).isNone then 0 else 1) :=
  C6_publish_exact _ 0 5 0 (some ()) (by decide) (by decide)

/-- C4: after a `Get` whose `fetch` published `(v, e)` at instant `now`,
every `Get` of the key before `now` plus the matching TTL returns the
cached pair — value and error alike — as a hit, without invoking its
own `fetch`, and leaves the published entry in place (so the property
persists for chains of such calls). -/
theorem C4_freshness (c : ICache K V E) (key : K) (now t' : Int)
    (fv : V) (fe : Option E) (g : V × Option E)
    (hsz : 1 ≤ c.core.size)
    (hf : (c.get key now (fv, fe)).fetched = true)
    (h0 : 0 ≤ t') (hlt : t' < now + ttlFor c fe) :
    ((c.get key now (fv, fe)).cache.get key t' g).value = fv ∧
    ((c.get key now (fv, fe)).cache.get key t' g).err = fe ∧
    ((c.get key now (fv, fe)).cache.get key t' g).fetched = false ∧
    ((c.get key now (fv, fe)).cache.get key t' g).events = [Event.hit] ∧
    ((c.get key now (fv, fe)).cache.get key t' g).cache.core.items.lookup
      key = some ⟨now + ttlFor c fe, fv, fe⟩ := by
  obtain ⟨-, -, h3, -, -, -, -, -⟩ := get_publishes c key now fv fe hsz hf
  have hfr : (⟨now + ttlFor c fe, fv, fe⟩ : EntryS V E).expires ≠ 0 := by
    show now + ttlFor c fe ≠ 0
    omega
  have hgt : (⟨now + ttlFor c fe, fv, fe⟩ : EntryS V E).expires > t' := by
    show now + ttlFor c fe > t'
    omega
  rw [get_hit_of_fresh _ key t' g _ h3 hfr hgt]
  refine ⟨rfl, rfl, rfl, rfl, ?_⟩
  simp

/-- Witness for C4: a successful fetch at instant 5 under `successTTL
100` is served from cache at instant 50 without a second fetch. -/
theorem C4_witness :
    let c : ICache Nat Nat Unit := ⟨⟨2, []⟩, 100, 10⟩
    ((c.get 0 5 (7, none)).cache.get 0 50 (9, none)).value = 7 ∧
    ((c.get 0 5 (7, none)).cache.get 0 50 (9, none)).err = none ∧
    ((c.get 0 5 (7, none)).cache.get 0 50 (9, none)).fetched = false ∧
    ((c.get 0 5 (7, none)).cache.get 0 50 (9, none)).events = [Event.hit] ∧
    ((c.get 0 5 (7, none)).cache.get 0 50 (9, none)).cache.core.items.lookup
      0 = some ⟨5 + ttlFor c none, 7, none⟩ :=
  C4_freshness _ 0 5 50 7 none (9, none) (by decide) (by decide)
    (by decide) (by decide)

/-- C10: a non-positive TTL disables caching rather than meaning "cache
forever": after a fetch whose outcome falls under a TTL ≤ 0, the stored
`expires = now + TTL` never exceeds any later instant, so the next `Get`
at any `t' ≥ now` invokes its `fetch` again and returns that fresh
result (symmetrically for `successTTL` on successes and `failedTTL` on
failures, via the TTL selector). -/
theorem C10_nonpositive_ttl_disables (c : ICache K V E) (key : K)
    (now t' : Int) (fv : V) (fe : Option E) (g : V × Option E)
    (hsz : 1 ≤ c.core.size)
    (hf : (c.get key now (fv, fe)).fetched = true)
    (httl : ttlFor c fe ≤ 0) (hle : now ≤ t') :
    (∃ e, (c.get key now (fv, fe)).cache.core.items.lookup key = some e ∧
      e.expires ≤ t') ∧
    ((c.get key now (fv, fe)).cache.get key t' g).fetched = true ∧
    ((c.get key now (fv, fe)).cache.get key t' g).value = g.1 ∧
    ((c.get key now (fv, fe)).cache.get key t' g).err = g.2 := by
  obtain ⟨-, -, h3, -, -, -, -, -⟩ := get_publishes c key now fv fe hsz hf
  have hst : (⟨now + ttlFor c fe, fv, fe⟩ : EntryS V E).expires ≤ t' := by
    show now + ttlFor c fe ≤ t'
    omega
  refine ⟨⟨_, h3, hst⟩, ?_⟩
  rw [get_stale_eq_publish _ key t' g _ h3 hst]
  exact ⟨rfl, rfl, rfl⟩

/-- Witness for C10: with `successTTL = 0`, a successful fetch at
instant 5 is already stale at instant 5, so an immediate second `Get`
fetches again. -/
theorem C10_witness :
    let c : ICache Nat Nat Unit := ⟨⟨2, []⟩, 0, 0⟩
    (∃ e, (c.get 0 5 (7, none)).cache.core.items.lookup 0 = some e ∧
      e.expires ≤ 5) ∧
    ((c.get 0 5 (7, none)).cache.get 0 5 (8, none)).fetched = true ∧
    ((c.get 0 5 (7, none)).cache.get 0 5 (8, none)).value = (8, (none : Option Unit)).1 ∧
    ((c.get 0 5 (7, none)).cache.get 0 5 (8, none)).err = (8, (none : Option Unit)).2 :=
  C10_nonpositive_ttl_disables _ 0 5 5 7 none (8, none) (by decide)
    (by decide) (by decide) (by decide)

/-- C3: `Del(key)` removes the key if present and returns true iff it
was present; explicit removal emits no eviction callback, and any
eviction callback emitted by `Get` is capacity-driven — it requires the
key to miss while the core is at (or beyond) capacity. -/
theorem C3_del_semantics (c : ICache K V E) (key : K)
    (hnd : (c.core.items.map Prod.fst).Nodup) :
    ((c.del key).2.1 = true ↔ (c.core.items.lookup key).isSome = true) ∧
    (c.del key).1.core.items.lookup key = none ∧
    (c.del key).2.2 = [] ∧
    (∀ (k' : K) (now : Int) (f : V × Option E) (ek : K) (ev : V),
      Event.evict ek ev ∈ (c.get k' now f).events →
      c.core.items.lookup k' = none ∧
        c.core.size ≤ c.core.items.length) := by
  refine ⟨?_, ?_, rfl, ?_⟩
  · show (c.core.remove key).2 = true ↔ _
    rw [LRU.remove]
    by_cases hk : (c.core.items.lookup key).isSome
    · rw [if_pos hk]
      simp [hk]
    · rw [if_neg hk]
      simp [hk]
  · show ((c.core.remove key).1).items.lookup key = none
    rw [LRU.remove]
    by_cases hk : (c.core.items.lookup key).isSome
    · rw [if_pos hk]
      exact lookup_eraseP_self key c.core.items hnd
    · rw [if_neg hk]
      exact Option.not_isSome_iff_eq_none.mp hk
  · intro k' now f ek ev hmem
    cases hlk : c.core.items.lookup k' with
    | some e =>
      exfalso
      by_cases hfr : e.expires ≠ 0 ∧ e.expires > now
      · rw [get_hit_of_fresh c k' now f e hlk hfr.1 hfr.2] at hmem
        simp at hmem
      · by_cases hgt : e.expires > now
        · have hred : (c.get k' now f).events = [] := by
            simp only [ICache.get, LRU.lruGet, hlk]
            rw [if_neg hfr, if_pos hgt]
          rw [hred] at hmem
          simp at hmem
        · rw [get_stale_eq_publish c k' now f e hlk (Int.not_lt.mp hgt)] at hmem
          obtain ⟨fv, fe⟩ := f
          cases fe <;> simp [ICache.publish] at hmem
    | none =>
      refine ⟨rfl, ?_⟩
      simp only [ICache.get, LRU.lruGet, hlk] at hmem
      rw [LRU.add] at hmem
      simp only [hlk, Option.isSome_none, Bool.false_eq_true, if_false] at hmem
      by_cases hcap :
          ((k', (⟨0, default, none⟩ : EntryS V E)) :: c.core.items).length >
            c.core.size
      · simp only [List.length_cons] at hcap
        omega
      · exfalso
        rw [if_neg hcap] at hmem
        by_cases hnow : (0 : Int) > now
        · rw [if_pos hnow] at hmem
          simp at hmem
        · rw [if_neg hnow] at hmem
          obtain ⟨fv, fe⟩ := f
          cases fe <;> simp [ICache.publish] at hmem

/-- Witness for C3 at a concrete two-entry cache: a present key is
removed with `true` and no callback; an absent key yields `false`. -/
theorem C3_witness :
    let c : ICache Nat Nat Unit := ⟨⟨2, [(0, ⟨5, 7, none⟩), (1, ⟨0, 0, none⟩)]⟩, 100, 10⟩
    ((c.del 0).2.1 = true ↔ (c.core.items.lookup 0).isSome = true) ∧
    (c.del 0).1.core.items.lookup 0 = none ∧
    (c.del 0).2.2 = [] ∧
    (∀ (k' : Nat) (now : Int) (f : Nat × Option Unit) (ek : Nat) (ev : Nat),
      Event.evict ek ev ∈ (c.get k' now f).events →
      c.core.items.lookup k' = none ∧
        c.core.size ≤ c.core.items.length) :=
  C3_del_semantics _ 0 (by decide)

/-- C7: an LRU `Get` of a present key promotes it to most-recently-used
while keeping the same bindings, and a `Get` that inserts a fresh key
into a full core of capacity `N ≥ 1` emits exactly one eviction
callback, whose argument is the least-recently-used binding's key and
its entry's value. -/
theorem C7_promotion_eviction :
    (∀ (l : LRU K (EntryS V E)) (k : K) (e : EntryS V E),
      l.items.lookup k = some e →
      (l.lruGet k).1.items.head? = some (k, e) ∧
      (l.lruGet k).1.items.Perm l.items ∧
      (l.lruGet k).2 = some e) ∧
    (∀ (s : Nat) (items : List (K × EntryS V E)) (sT fT : Int) (k : K)
      (now : Int) (f : V × Option E) (kl : K) (el : EntryS V E),
      items.lookup k = none → items.length = s → 1 ≤ s →
      items.getLast? = some (kl, el) →
      ((⟨⟨s, items⟩, sT, fT⟩ : ICache K V E).get k now f).events.filter
        isEvictE = [Event.evict kl el.value]) := by
  constructor
  · intro l k e hl
    refine ⟨?_, ?_, ?_⟩
    · simp [LRU.lruGet, hl]
    · have hred : (l.lruGet k).1 =
          ⟨l.size, (k, e) :: l.items.eraseP (fun p => p.1 == k)⟩ := by
        simp [LRU.lruGet, hl]
      rw [hred]
      exact (lookup_some_perm k e l.items hl).symm
    · simp [LRU.lruGet, hl]
  · intro s items sT fT k now f kl el hlk hlen hsz hgl
    have hne : items ≠ [] := by
      intro h
      rw [h] at hlen
      simp at hlen
      omega
    cases hitems : items with
    | nil => exact absurd hitems hne
    | cons p tl =>
      subst hitems
      simp only [ICache.get, LRU.lruGet, hlk]
      rw [LRU.add]
      simp only [hlk, Option.isSome_none, Bool.false_eq_true, if_false]
      have hcap : ((k, (⟨0, default, none⟩ : EntryS V E)) :: p :: tl).length > s := by
        simp only [List.length_cons]
        simp only [List.length_cons] at hlen
        omega
      rw [if_pos hcap]
      rw [List.getLast?_cons_cons, hgl]
      by_cases hnow : (0 : Int) > now
      · rw [if_pos hnow]
        simp [isEvictE]
      · rw [if_neg hnow]
        obtain ⟨fv, fe⟩ := f
        cases fe <;> simp [ICache.publish, isEvictE]

/-- Witness for C7 tracing the spec's scenario 6 (capacity 2, keys `a =
0`, `b = 1`, `c = 2`): after `Get a`, `Get b`, `Get a` the core is
`[a, b]` in recency order, and `Get c` evicts `b`, not `a`. -/
theorem C7_witness :
    ((((⟨⟨2, []⟩, 100, 10⟩ : ICache Nat Nat Unit).get 0 1 (7, none)).cache.get
        1 1 (8, none)).cache.get 0 1 (7, none)).cache =
      (⟨⟨2, [(0, ⟨101, 7, none⟩), (1, ⟨101, 8, none⟩)]⟩, 100, 10⟩ :
        ICache Nat Nat Unit) ∧
    ((⟨⟨2, [(0, ⟨101, 7, none⟩)]⟩, 100, 10⟩ :
        ICache Nat Nat Unit).core.lruGet 0).1.items.head? =
      some (0, ⟨101, 7, none⟩) ∧
    ((⟨⟨2, [(0, ⟨101, 7, none⟩), (1, ⟨101, 8, none⟩)]⟩, 100, 10⟩ :
        ICache Nat Nat Unit).get 2 1 (9, none)).events.filter isEvictE =
      [Event.evict 1 8] :=
  ⟨by decide,
   (C7_promotion_eviction.1 ⟨2, [(0, ⟨101, 7, none⟩)]⟩ 0 ⟨101, 7, none⟩
     (by decide)).1,
   C7_promotion_eviction.2 2 [(0, ⟨101, 7, none⟩), (1, ⟨101, 8, none⟩)]
     100 10 2 1 (9, none) 1 ⟨101, 8, none⟩ (by decide) (by decide)
     (by decide) (by decide)⟩

/-- C8: construction with capacity ≤ 0 fails loudly (`simplelru.NewLRU`
errors and `NewInertiaLRU` panics — `none` in the model); for capacity ≥
1 construction succeeds with an empty core of that capacity, and the
core's occupancy bound `length ≤ capacity` is preserved by every `Get`
and `Del`. -/
theorem C8_construction :
    (∀ size sTTL fTTL : Int, size ≤ 0 →
      (NewInertiaLRU size sTTL fTTL : Option (ICache K V E)) = none) ∧
    (∀ size sTTL fTTL : Int, 1 ≤ size →
      (NewInertiaLRU size sTTL fTTL : Option (ICache K V E)) =
        some ⟨⟨size.toNat, []⟩, sTTL, fTTL⟩ ∧ 1 ≤ size.toNat) ∧
    (∀ (c : ICache K V E) (k : K) (now : Int) (f : V × Option E),
      c.core.items.length ≤ c.core.size →
      (c.get k now f).cache.core.size = c.core.size ∧
      (c.get k now f).cache.core.items.length ≤ c.core.size) ∧
    (∀ (c : ICache K V E) (k : K),
      c.core.items.length ≤ c.core.size →
      (c.del k).1.core.size = c.core.size ∧
      (c.del k).1.core.items.length ≤ c.core.size) := by
  refine ⟨?_, ?_, ?_, ?_⟩
  · intro size sTTL fTTL h
    simp [NewInertiaLRU, h]
  · intro size sTTL fTTL h
    constructor
    · rw [NewInertiaLRU, if_neg (by omega)]
    · omega
  · intro c k now f hb
    obtain ⟨⟨s, items⟩, sT, fT⟩ := c
    simp only at hb ⊢
    cases hlk : items.lookup k with
    | some e =>
      have herase := length_lookup_eraseP k e items hlk
      by_cases hfr : e.expires ≠ 0 ∧ e.expires > now
      · rw [get_hit_of_fresh _ k now f e hlk hfr.1 hfr.2]
        refine ⟨rfl, ?_⟩
        simp only [List.length_cons]
        omega
      · by_cases hgt : e.expires > now
        · have hred : (⟨⟨s, items⟩, sT, fT⟩ : ICache K V E).get k now f =
              ⟨⟨⟨s, (k, e) :: items.eraseP (fun p => p.1 == k)⟩, sT, fT⟩,
                e.value, e.err, [], false⟩ := by
            simp only [ICache.get, LRU.lruGet, hlk]
            rw [if_neg hfr, if_pos hgt]
          rw [hred]
          refine ⟨rfl, ?_⟩
          simp only [List.length_cons]
          omega
        · rw [get_stale_eq_publish _ k now f e hlk (Int.not_lt.mp hgt)]
          refine ⟨rfl, ?_⟩
          simp only [ICache.publish, LRU.update, List.length_map,
            List.length_cons]
          omega
    | none =>
      simp only [ICache.get, LRU.lruGet, hlk]
      rw [LRU.add]
      simp only [hlk, Option.isSome_none, Bool.false_eq_true, if_false]
      by_cases hcap :
          ((k, (⟨0, default, none⟩ : EntryS V E)) :: items).length > s
      · rw [if_pos hcap]
        by_cases hnow : (0 : Int) > now
        · rw [if_pos hnow]
          refine ⟨rfl, ?_⟩
          simp only [List.length_dropLast, List.length_cons]
          omega
        · rw [if_neg hnow]
          refine ⟨rfl, ?_⟩
          simp only [ICache.publish, LRU.update, List.length_map,
            List.length_dropLast, List.length_cons]
          omega
      · rw [if_neg hcap]
        simp only [List.length_cons] at hcap
        by_cases hnow : (0 : Int) > now
        · rw [if_pos hnow]
          refine ⟨rfl, ?_⟩
          simp only [List.length_cons]
          omega
        · rw [if_neg hnow]
          refine ⟨rfl, ?_⟩
          simp only [ICache.publish, LRU.update, List.length_map,
            List.length_cons]
          omega
  · intro c k hb
    show ((c.core.remove k).1).size = c.core.size ∧
      ((c.core.remove k).1).items.length ≤ c.core.size
    rw [LRU.remove]
    by_cases hk : (c.core.items.lookup k).isSome
    · rw [if_pos hk]
      refine ⟨rfl, ?_⟩
      show (c.core.items.eraseP (fun p => p.1 == k)).length ≤ c.core.size
      have := (List.eraseP_sublist (l := c.core.items)
        (p := fun p => p.1 == k)).length_le
      omega
    · rw [if_neg hk]
      exact ⟨rfl, hb⟩

/-- Witness for C8: capacity 0 and capacity −3 are rejected, capacity 2
is accepted with an empty core, and the bound is preserved at a full
concrete cache. -/
theorem C8_witness :
    ((NewInertiaLRU 0 100 10 : Option (ICache Nat Nat Unit)) = none) ∧
    ((NewInertiaLRU 2 100 10 : Option (ICache Nat Nat Unit)) =
      some ⟨⟨(2 : Int).toNat, []⟩, 100, 10⟩ ∧ 1 ≤ (2 : Int).toNat) ∧
    (((⟨⟨2, [(0, ⟨5, 7, none⟩), (1, ⟨0, 0, none⟩)]⟩, 100, 10⟩ :
        ICache Nat Nat Unit).get 3 1 (9, none)).cache.core.size = 2 ∧
     ((⟨⟨2, [(0, ⟨5, 7, none⟩), (1, ⟨0, 0, none⟩)]⟩, 100, 10⟩ :
        ICache Nat Nat Unit).get 3 1 (9, none)).cache.core.items.length ≤ 2) :=
  ⟨C8_construction.1 0 100 10 (by decide),
   C8_construction.2.1 2 100 10 (by decide),
   C8_construction.2.2.1 ⟨⟨2, [(0, ⟨5, 7, none⟩), (1, ⟨0, 0, none⟩)]⟩, 100, 10⟩
     3 1 (9, none) (by decide)⟩

/-- C1 (counterexample): the single-flight claim as stated — with no
assumption on the TTLs — fails on the code.  With `successTTL = 0` at
instant 1, two callers run `Get(k, fetch)` concurrently from Empty (the
follower enters while the entry is still unresolved and blocks on its
mutex during the leader's fetch), yet the execution below ends with both
callers done and `fetch` invoked twice: the published entry `expires =
now + 0` is already stale when the follower wakes, so its re-check fails
and it fetches again. -/
theorem C1_counterexample :
    Conc.Reach (V := Nat) (E := Unit) 1 0 0 7 none (Conc.initConfig 2 none)
      ⟨some ⟨none, 1, 7, none⟩, 0, 2, 0, 2,
        [Conc.Phase.done 7 none Conc.Ctr.succ,
         Conc.Phase.done 7 none Conc.Ctr.succ]⟩ ∧
    Conc.AllDone (⟨some ⟨none, 1, 7, none⟩, 0, 2, 0, 2,
        [Conc.Phase.done 7 none Conc.Ctr.succ,
         Conc.Phase.done 7 none Conc.Ctr.succ]⟩ : Conc.Config Nat Unit) ∧
    (⟨some ⟨none, 1, 7, none⟩, 0, 2, 0, 2,
        [Conc.Phase.done 7 none Conc.Ctr.succ,
         Conc.Phase.done 7 none Conc.Ctr.succ]⟩ :
      Conc.Config Nat Unit).fetchCount = 2 :=
  ⟨Conc.trace_zero_ttl, by simp [Conc.AllDone], rfl⟩

/-- C1 (amended): provided the TTL matching the fetch outcome is
positive, single-flight holds: for `M ≥ 1` callers of `Get(k, fetch)`
interleaved arbitrarily from an Empty or Stale entry at one instant, at
most one `fetch` is in flight in every reachable configuration, and in
every complete execution `fetch` was invoked exactly once and all `M`
calls returned the pair published by that single invocation. -/
theorem C1_single_flight_amended {V E : Type} [Inhabited V]
    (now sTTL fTTL : Int) (fv : V) (fe : Option E) (M : Nat)
    (ent : Option (Conc.CEntry V E)) (c : Conc.Config V E)
    (hnow : 0 ≤ now) (httl : 0 < Conc.ttlOf sTTL fTTL fe)
    (hok : Conc.InitOk now ent)
    (hr : Conc.Reach now sTTL fTTL fv fe (Conc.initConfig M ent) c)
    (hM : 1 ≤ M) :
    Conc.nInFetch c ≤ 1 ∧
    (Conc.AllDone c →
      c.fetchCount = 1 ∧
      ∀ ph ∈ c.threads, ∃ k, ph = Conc.Phase.done fv fe k) := by
  constructor
  · exact Conc.nInFetch_le_one c
      (Conc.inv_reach hnow _ _ hr
        (Conc.inv_init M ent (Conc.initOk_free ent hok)))
  · intro hdone
    obtain ⟨h1, -, -, -, h5⟩ :=
      Conc.final_characterization hnow httl M ent hok c hr hdone hM
    exact ⟨h1, h5⟩

/-- Witness for the amended C1 on the concrete two-caller execution:
one in-flight fetch at most, one invocation, both callers return
`(7, nil)`. -/
theorem C1_witness :
    Conc.nInFetch (⟨some ⟨none, 100, 7, none⟩, 1, 1, 0, 1,
      [Conc.Phase.done 7 none Conc.Ctr.succ,
       Conc.Phase.done 7 none Conc.Ctr.hit]⟩ : Conc.Config Nat Unit) ≤ 1 ∧
    (Conc.AllDone (⟨some ⟨none, 100, 7, none⟩, 1, 1, 0, 1,
      [Conc.Phase.done 7 none Conc.Ctr.succ,
       Conc.Phase.done 7 none Conc.Ctr.hit]⟩ : Conc.Config Nat Unit) →
      (⟨some ⟨none, 100, 7, none⟩, 1, 1, 0, 1,
        [Conc.Phase.done 7 none Conc.Ctr.succ,
         Conc.Phase.done 7 none Conc.Ctr.hit]⟩ :
          Conc.Config Nat Unit).fetchCount = 1 ∧
      ∀ ph ∈ (⟨some ⟨none, 100, 7, none⟩, 1, 1, 0, 1,
        [Conc.Phase.done 7 none Conc.Ctr.succ,
         Conc.Phase.done 7 none Conc.Ctr.hit]⟩ :
          Conc.Config Nat Unit).threads,
        ∃ k, ph = Conc.Phase.done 7 none k) :=
  C1_single_flight_amended 0 100 10 7 none 2 none _ (by decide) (by decide)
    trivial Conc.trace_two_callers (by decide)

/-- C2 (counterexample): the claim that a coalesced follower increments
no counter — in particular that `IncrGetHit` is incremented exactly 0
times when all followers block on the entry mutex before the leader
publishes — fails on the code.  In the execution below, thread 1 blocks
on the entry mutex while thread 0's fetch is in flight (the middle
configuration), wakes after the publish, and its post-lock snapshot
check succeeds, so it returns the cached pair through the `IncrGetHit`
path: the final counter is 1, not 0. -/
theorem C2_counterexample :
    Conc.Reach (V := Nat) (E := Unit) 0 100 10 7 none (Conc.initConfig 2 none)
      ⟨some ⟨some 0, 0, 0, none⟩, 0, 0, 0, 1,
        [Conc.Phase.inFetch, Conc.Phase.waitEntry]⟩ ∧
    Conc.Reach (V := Nat) (E := Unit) 0 100 10 7 none
      ⟨some ⟨some 0, 0, 0, none⟩, 0, 0, 0, 1,
        [Conc.Phase.inFetch, Conc.Phase.waitEntry]⟩
      ⟨some ⟨none, 100, 7, none⟩, 1, 1, 0, 1,
        [Conc.Phase.done 7 none Conc.Ctr.succ,
         Conc.Phase.done 7 none Conc.Ctr.hit]⟩ ∧
    Conc.AllDone (⟨some ⟨none, 100, 7, none⟩, 1, 1, 0, 1,
        [Conc.Phase.done 7 none Conc.Ctr.succ,
         Conc.Phase.done 7 none Conc.Ctr.hit]⟩ : Conc.Config Nat Unit) ∧
    (⟨some ⟨none, 100, 7, none⟩, 1, 1, 0, 1,
        [Conc.Phase.done 7 none Conc.Ctr.succ,
         Conc.Phase.done 7 none Conc.Ctr.hit]⟩ :
      Conc.Config Nat Unit).hitC = 1 :=
  ⟨Conc.trace_to_mid, Conc.trace_mid_to_fin, by simp [Conc.AllDone], rfl⟩

/-- C2 (amended): a coalesced follower that blocks on the entry mutex
and, on waking, finds the entry populated and fresh returns the cached
pair through the snapshot-hit path and therefore increments `IncrGetHit`
exactly once; with `M` concurrent callers of `Get(k, fetch)` from Empty
under a positive matching TTL, every complete execution ends with
`IncrGetHit` incremented exactly `M − 1` times — once per follower —
and every caller returning the published pair. -/
theorem C2_followers_record_hits {V E : Type} [Inhabited V]
    (now sTTL fTTL : Int) (fv : V) (fe : Option E) (M : Nat)
    (c : Conc.Config V E)
    (hnow : 0 ≤ now) (httl : 0 < Conc.ttlOf sTTL fTTL fe)
    (hr : Conc.Reach now sTTL fTTL fv fe (Conc.initConfig M none) c)
    (hdone : Conc.AllDone c) (hM : 1 ≤ M) :
    c.hitC = M - 1 ∧
    (∀ ph ∈ c.threads, ∃ k, ph = Conc.Phase.done fv fe k) := by
  obtain ⟨-, h2, -, -, h5⟩ :=
    Conc.final_characterization hnow httl M none trivial c hr hdone hM
  exact ⟨h2, h5⟩

/-- Witness for the amended C2 on the concrete two-caller execution:
the single follower records one hit (`M − 1 = 1`). -/
theorem C2_witness :
    (⟨some ⟨none, 100, 7, none⟩, 1, 1, 0, 1,
      [Conc.Phase.done 7 none Conc.Ctr.succ,
       Conc.Phase.done 7 none Conc.Ctr.hit]⟩ :
        Conc.Config Nat Unit).hitC = 2 - 1 ∧
    (∀ ph ∈ (⟨some ⟨none, 100, 7, none⟩, 1, 1, 0, 1,
      [Conc.Phase.done 7 none Conc.Ctr.succ,
       Conc.Phase.done 7 none Conc.Ctr.hit]⟩ :
        Conc.Config Nat Unit).threads,
      ∃ k, ph = Conc.Phase.done 7 none k) :=
  C2_followers_record_hits 0 100 10 7 none 2 _ (by decide) (by decide)
    Conc.trace_two_callers (by simp [Conc.AllDone]) (by decide)

/-- C9: in every execution of `Get` from a lock-free initial entry on a
wall clock (`0 ≤ now`), the re-check after the deferred unlock never
evaluates true — no call ever completes through the counter-less return
path — and consequently every completed `Get` increments exactly one of
the three counters: their sum equals the number of completed calls. -/
theorem C9_recheck_dead {V E : Type} [Inhabited V]
    (now sTTL fTTL : Int) (fv : V) (fe : Option E) (M : Nat)
    (ent : Option (Conc.CEntry V E)) (c : Conc.Config V E)
    (hnow : 0 ≤ now) (hfree : Conc.InitFree ent)
    (hr : Conc.Reach now sTTL fTTL fv fe (Conc.initConfig M ent) c) :
    (∀ (t : Nat) (v : V) (e : Option E),
      c.threads[t]? ≠ some (Conc.Phase.done v e Conc.Ctr.silent)) ∧
    c.hitC + c.succC + c.failC = Conc.nDone c := by
  have hinv := Conc.inv_reach hnow _ _ hr (Conc.inv_init M ent hfree)
  constructor
  · intro t v e hcon
    have hpos : 0 < c.threads.countP (Conc.isDoneWith Conc.Ctr.silent) := by
      apply List.countP_pos_iff.mpr
      refine ⟨_, List.mem_iff_getElem?.mpr ⟨t, hcon⟩, by simp⟩
    have hz : c.threads.countP (Conc.isDoneWith Conc.Ctr.silent) = 0 :=
      hinv.noSilent
    omega
  · have h1 : c.hitC = c.threads.countP (Conc.isDoneWith Conc.Ctr.hit) :=
      hinv.hitEq
    have h2 : c.succC = c.threads.countP (Conc.isDoneWith Conc.Ctr.succ) :=
      hinv.succEq
    have h3 : c.failC = c.threads.countP (Conc.isDoneWith Conc.Ctr.fail) :=
      hinv.failEq
    have hz : c.threads.countP (Conc.isDoneWith Conc.Ctr.silent) = 0 :=
      hinv.noSilent
    have hd := Conc.done_partition c.threads
    show c.hitC + c.succC + c.failC = c.threads.countP Conc.isDoneP
    omega

/-- Witness for C9 on the concrete two-caller execution: no silent
completion, and `hit + success + failed = 2` completed calls. -/
theorem C9_witness :
    (∀ (t : Nat) (v : Nat) (e : Option Unit),
      (⟨some ⟨none, 100, 7, none⟩, 1, 1, 0, 1,
        [Conc.Phase.done 7 none Conc.Ctr.succ,
         Conc.Phase.done 7 none Conc.Ctr.hit]⟩ :
          Conc.Config Nat Unit).threads[t]? ≠
        some (Conc.Phase.done v e Conc.Ctr.silent)) ∧
    (⟨some ⟨none, 100, 7, none⟩, 1, 1, 0, 1,
      [Conc.Phase.done 7 none Conc.Ctr.succ,
       Conc.Phase.done 7 none Conc.Ctr.hit]⟩ :
        Conc.Config Nat Unit).hitC +
      (⟨some ⟨none, 100, 7, none⟩, 1, 1, 0, 1,
        [Conc.Phase.done 7 none Conc.Ctr.succ,
         Conc.Phase.done 7 none Conc.Ctr.hit]⟩ :
          Conc.Config Nat Unit).succC +
      (⟨some ⟨none, 100, 7, none⟩, 1, 1, 0, 1,
        [Conc.Phase.done 7 none Conc.Ctr.succ,
         Conc.Phase.done 7 none Conc.Ctr.hit]⟩ :
          Conc.Config Nat Unit).failC =
      Conc.nDone (⟨some ⟨none, 100, 7, none⟩, 1, 1, 0, 1,
        [Conc.Phase.done 7 none Conc.Ctr.succ,
         Conc.Phase.done 7 none Conc.Ctr.hit]⟩ : Conc.Config Nat Unit) :=
  C9_recheck_dead 0 100 10 7 none 2 none _ (by decide) trivial
    Conc.trace_two_callers

end LocalCache
